import Mathlib

/-!
Verification development for the Vector-Search-Service repository.

The repository is a TypeScript microservice that clones a git repository,
splits its source files into fixed-size line chunks, embeds each chunk, and
upserts the resulting vectors into a per-tenant namespace of a Pinecone
index, while a MongoDB job record tracks status and progress.

Shallow embedding conventions used throughout this file:
- JavaScript strings that are inspected character by character (file
  contents) are modelled as `List Char`; strings used only as opaque keys
  or messages stay `String`.
- File-system paths are modelled as lists of path segments
  (`List String`); `path.join(dir, name)` is `dir ++ [name]` and
  `path.extname` looks at the last segment, as Node does.
- Asynchronous effectful code is modelled as pure functions that return a
  result together with the ordered list of externally visible events
  (job-record updates, remote calls, directory operations) it performs.
  Info-level log lines are not modelled; warn-level log lines are, where a
  claim distinguishes silent retries from logged ones.
- Numbers that the source manipulates (line counts, progress percentages,
  retry counters) are natural numbers; `Math.floor` of a nonnegative exact
  division is `Nat` division.  Embedding values are opaque (`List Rat`).
-/

namespace VSS

/-- Chunk record produced by `chunkFile` (src/src/utils/chunker.ts, `CodeChunk`).
`content` is the chunk text as a character list, `filePath` the path of the
source file as segments. -/
structure CodeChunk where
  content : List Char
  filePath : List String
  chunkIndex : Nat
  startLine : Nat
  endLine : Nat
deriving DecidableEq

/-- JavaScript `content.split('\n')` for a single-character separator: the
list of maximal `'\n'`-free segments; always non-empty, and an empty string
splits to `[[]]`. -/
def splitNl : List Char → List (List Char)
  | [] => [[]]
  | c :: cs =>
      if c = '\n' then [] :: splitNl cs
      else
        match splitNl cs with
        | l :: ls => (c :: l) :: ls
        | [] => [[c]]

theorem splitNl_ne_nil (cs : List Char) : splitNl cs ≠ [] := by
  induction cs with
  | nil => simp [splitNl]
  | cons c cs ih =>
      by_cases h : c = '\n'
      · simp [splitNl, h]
      · simp only [splitNl, h, if_false]
        rcases hs : splitNl cs with _ | ⟨l, ls⟩
        · simp
        · simp

/-- Loop body of `chunkFile` (src/src/utils/chunker.ts lines 51-70): walks the
split lines carrying the accumulated chunk text, the line count of the
current chunk, the next chunk index and the 1-based start line; a chunk is
emitted when `chunkSize` lines have accumulated or the input ends. -/
def chunkFileGo (filePath : List String) (chunkSize : Nat) :
    List (List Char) → List Char → Nat → Nat → Nat → List CodeChunk
  | [], _, _, _, _ => []
  | line :: rest, currentChunk, lineCount, chunkIndex, startLine =>
      let currentChunk' := currentChunk ++ line ++ ['\n']
      let lineCount' := lineCount + 1
      if chunkSize ≤ lineCount' ∨ rest = [] then
        { content := currentChunk', filePath := filePath, chunkIndex := chunkIndex,
          startLine := startLine, endLine := startLine + lineCount' - 1 } ::
          chunkFileGo filePath chunkSize rest [] 0 (chunkIndex + 1) (startLine + lineCount')
      else
        chunkFileGo filePath chunkSize rest currentChunk' lineCount' chunkIndex startLine

/-- Embedding of `chunkFile` (src/src/utils/chunker.ts lines 40-77).  The
`content` argument is `none` when `fs.promises.readFile` fails, in which
case the error is logged and `[]` returned; otherwise the text is split on
`'\n'` and chunked by the loop. -/
def chunkFile (filePath : List String) (content : Option (List Char)) (chunkSize : Nat) :
    List CodeChunk :=
  match content with
  | none => []
  | some text => chunkFileGo filePath chunkSize (splitNl text) [] 0 0 1

theorem chunkFileGo_ne_nil (fp : List String) (C : Nat) (l : List Char)
    (lines : List (List Char)) (cur : List Char) (k idx start : Nat) :
    chunkFileGo fp C (l :: lines) cur k idx start ≠ [] := by
  induction lines generalizing l cur k idx start with
  | nil => simp [chunkFileGo]
  | cons l2 ls ih =>
      by_cases h : C ≤ k + 1
      · simp [chunkFileGo, h]
      · simpa [chunkFileGo, h] using ih l2 (cur ++ l ++ ['\n']) (k + 1) idx start

theorem chunkFileGo_filePath (fp : List String) (C : Nat)
    (lines : List (List Char)) (cur : List Char) (k idx start : Nat) :
    ∀ ch ∈ chunkFileGo fp C lines cur k idx start, ch.filePath = fp := by
  induction lines generalizing cur k idx start with
  | nil => simp [chunkFileGo]
  | cons l rest ih =>
      intro ch hch
      by_cases h : C ≤ k + 1 ∨ rest = []
      · rw [chunkFileGo, if_pos h, List.mem_cons] at hch
        rcases hch with hch | hch
        · simp [hch]
        · exact ih [] 0 (idx + 1) (start + (k + 1)) ch hch
      · rw [chunkFileGo, if_neg h] at hch
        exact ih (cur ++ l ++ ['\n']) (k + 1) idx start ch hch

/-- Unfolding law for the chunking loop in the middle of a chunk: with `k`
lines already accumulated (`k < C`), the loop emits one chunk taking the
next `min (C - k) lines.length` lines and restarts with empty accumulators. -/
theorem chunkFileGo_spec (fp : List String) (C : Nat) :
    ∀ (lines : List (List Char)), lines ≠ [] → ∀ (cur : List Char) (k : Nat), k < C →
    ∀ (idx start : Nat),
    chunkFileGo fp C lines cur k idx start =
      { content := cur ++ ((lines.take (min (C - k) lines.length)).map (· ++ ['\n'])).flatten,
        filePath := fp, chunkIndex := idx, startLine := start,
        endLine := start + k + min (C - k) lines.length - 1 } ::
      chunkFileGo fp C (lines.drop (min (C - k) lines.length)) [] 0 (idx + 1)
        (start + k + min (C - k) lines.length) := by
  intro lines
  induction lines with
  | nil => intro h; exact absurd rfl h
  | cons l rest ih =>
      intro _ cur k hk idx start
      rcases rest with _ | ⟨l2, ls⟩
      · have hm : min (C - k) (([l] : List (List Char)).length) = 1 := by
          have h1 : 1 ≤ C - k := by omega
          simp [Nat.min_eq_right h1]
        rw [chunkFileGo]
        simp only [hm]
        have hadd : start + (k + 1) = start + k + 1 := by omega
        simp [List.append_assoc, hadd]
      · by_cases hCk : C ≤ k + 1
        · have hC : C = k + 1 := by omega
          have hm : min (C - k) ((l :: l2 :: ls).length) = 1 := by
            have : C - k = 1 := by omega
            simp [this]
          rw [chunkFileGo, if_pos (Or.inl hCk)]
          simp only [hm]
          have hadd : start + (k + 1) = start + k + 1 := by omega
          simp [List.append_assoc, hC, hadd]
        · have hne : (l2 :: ls : List (List Char)) ≠ [] := by simp
          have hk1 : k + 1 < C := by omega
          rw [chunkFileGo, if_neg (by simp [hCk])]
          rw [ih hne (cur ++ l ++ ['\n']) (k + 1) hk1 idx start]
          have hmin : min (C - k) ((l :: l2 :: ls).length)
              = min (C - (k + 1)) ((l2 :: ls).length) + 1 := by
            have h1 : C - k = (C - (k + 1)) + 1 := by omega
            have h2 : (l :: l2 :: ls).length = (l2 :: ls).length + 1 := by simp
            rw [h1, h2]
            simpa using Nat.succ_min_succ (C - (k + 1)) ((l2 :: ls).length)
          rw [hmin, List.take_succ_cons, List.drop_succ_cons]
          have hEnd : start + k + (min (C - (k + 1)) ((l2 :: ls).length) + 1) - 1
              = start + (k + 1) + min (C - (k + 1)) ((l2 :: ls).length) - 1 := by omega
          have hStart : start + k + (min (C - (k + 1)) ((l2 :: ls).length) + 1)
              = start + (k + 1) + min (C - (k + 1)) ((l2 :: ls).length) := by omega
          rw [hEnd, hStart]
          simp [List.append_assoc]

/-- Specialisation of `chunkFileGo_spec` to the state at a chunk boundary
(empty accumulators), the state in which `chunkFile` starts the loop. -/
theorem chunkFileGo_cons (fp : List String) (C : Nat) (hC : 0 < C) (l : List Char)
    (lines : List (List Char)) (idx start : Nat) :
    chunkFileGo fp C (l :: lines) [] 0 idx start =
      { content := (((l :: lines).take (min C (l :: lines).length)).map (· ++ ['\n'])).flatten,
        filePath := fp, chunkIndex := idx, startLine := start,
        endLine := start + min C (l :: lines).length - 1 } ::
      chunkFileGo fp C ((l :: lines).drop (min C (l :: lines).length)) [] 0 (idx + 1)
        (start + min C (l :: lines).length) := by
  have h := chunkFileGo_spec fp C (l :: lines) (by simp) [] 0 hC idx start
  simpa using h

theorem min_chunk_pos (C : Nat) (hC : 0 < C) (l : List Char) (lines : List (List Char)) :
    0 < min C (l :: lines).length :=
  lt_min hC (by simp)

theorem ceil_div_step (C len : Nat) (hC : 0 < C) (hlen : 0 < len) :
    (len - min C len + C - 1) / C + 1 = (len + C - 1) / C := by
  rcases le_or_lt len C with h | h
  · rw [Nat.min_eq_right h]
    have h0 : len - len = 0 := by omega
    rw [h0]
    have hL : (0 + C - 1) / C = 0 := Nat.div_eq_of_lt (by omega)
    have hR : (len + C - 1) / C = 1 := by
      apply Nat.div_eq_of_lt_le
      · omega
      · omega
    rw [hL, hR]
  · rw [Nat.min_eq_left (by omega)]
    have e1 : len - C + C - 1 = len - 1 := by omega
    have e2 : len + C - 1 = (len - 1) + C := by omega
    rw [e1, e2, Nat.add_div_right _ hC]

theorem chunkFileGo_length (fp : List String) (C : Nat) (hC : 0 < C) :
    ∀ (n : Nat) (lines : List (List Char)) (idx start : Nat), lines.length ≤ n →
    (chunkFileGo fp C lines [] 0 idx start).length = (lines.length + C - 1) / C := by
  intro n
  induction n with
  | zero =>
      intro lines idx start hlen
      have hnil : lines = [] := List.length_eq_zero.mp (by omega)
      subst hnil
      show (0 : Nat) = (0 + C - 1) / C
      exact (Nat.div_eq_of_lt (by omega)).symm
  | succ n ih =>
      intro lines idx start hlen
      rcases lines with _ | ⟨l, rest⟩
      · show (0 : Nat) = (0 + C - 1) / C
        exact (Nat.div_eq_of_lt (by omega)).symm
      · rw [chunkFileGo_cons fp C hC]
        have hm1 := min_chunk_pos C hC l rest
        have hdrop : (((l :: rest).drop (min C (l :: rest).length)).length) ≤ n := by
          rw [List.length_drop]
          have : 0 < (l :: rest).length := by simp
          omega
        rw [List.length_cons, ih _ (idx + 1) _ hdrop, List.length_drop]
        exact ceil_div_step C (l :: rest).length hC (by simp)

theorem chunkFileGo_indices (fp : List String) (C : Nat) (hC : 0 < C) :
    ∀ (n : Nat) (lines : List (List Char)) (idx start : Nat), lines.length ≤ n →
    (chunkFileGo fp C lines [] 0 idx start).map (fun ch => ch.chunkIndex)
      = List.range' idx (chunkFileGo fp C lines [] 0 idx start).length := by
  intro n
  induction n with
  | zero =>
      intro lines idx start hlen
      have hnil : lines = [] := List.length_eq_zero.mp (by omega)
      subst hnil
      rfl
  | succ n ih =>
      intro lines idx start hlen
      rcases lines with _ | ⟨l, rest⟩
      · rfl
      · rw [chunkFileGo_cons fp C hC]
        have hdrop : (((l :: rest).drop (min C (l :: rest).length)).length) ≤ n := by
          rw [List.length_drop]
          have := min_chunk_pos C hC l rest
          have : 0 < (l :: rest).length := by simp
          omega
        rw [List.map_cons, ih _ (idx + 1) _ hdrop]
        simp [List.range'_succ]

theorem chunkFileGo_cover (fp : List String) (C : Nat) (hC : 0 < C) :
    ∀ (n : Nat) (lines : List (List Char)) (idx start : Nat), lines.length ≤ n →
    ((chunkFileGo fp C lines [] 0 idx start).map
        (fun ch => List.range' ch.startLine (ch.endLine + 1 - ch.startLine))).flatten
      = List.range' start lines.length := by
  intro n
  induction n with
  | zero =>
      intro lines idx start hlen
      have hnil : lines = [] := List.length_eq_zero.mp (by omega)
      subst hnil
      rfl
  | succ n ih =>
      intro lines idx start hlen
      rcases lines with _ | ⟨l, rest⟩
      · rfl
      · rw [chunkFileGo_cons fp C hC]
        have hm1 := min_chunk_pos C hC l rest
        have hmle : min C (l :: rest).length ≤ (l :: rest).length := Nat.min_le_right _ _
        have hdrop : (((l :: rest).drop (min C (l :: rest).length)).length) ≤ n := by
          rw [List.length_drop]
          have : 0 < (l :: rest).length := by simp
          omega
        simp only [List.map_cons, List.flatten_cons]
        rw [ih _ (idx + 1) _ hdrop, List.length_drop]
        have hspan : start + min C (l :: rest).length - 1 + 1 - start
            = min C (l :: rest).length := by omega
        rw [hspan]
        have happ := List.range'_append start (min C (l :: rest).length)
          ((l :: rest).length - min C (l :: rest).length) 1
        simp only [one_mul] at happ
        rw [happ]
        have : ((l :: rest).length - min C (l :: rest).length) + min C (l :: rest).length
            = (l :: rest).length := by omega
        rw [this]

theorem chunkFileGo_sizes (fp : List String) (C : Nat) (hC : 0 < C) :
    ∀ (n : Nat) (lines : List (List Char)) (idx start : Nat), lines.length ≤ n →
    ∀ ch ∈ (chunkFileGo fp C lines [] 0 idx start).dropLast,
      ch.endLine + 1 - ch.startLine = C := by
  intro n
  induction n with
  | zero =>
      intro lines idx start hlen
      have hnil : lines = [] := List.length_eq_zero.mp (by omega)
      subst hnil
      intro ch hch
      simp [chunkFileGo] at hch
  | succ n ih =>
      intro lines idx start hlen
      rcases lines with _ | ⟨l, rest⟩
      · intro ch hch
        simp [chunkFileGo] at hch
      · rw [chunkFileGo_cons fp C hC]
        intro ch hch
        rcases hd : (l :: rest).drop (min C (l :: rest).length) with _ | ⟨d, ds⟩
        · rw [hd] at hch
          simp [chunkFileGo] at hch
        · rw [hd] at hch
          have hne := chunkFileGo_ne_nil fp C d ds [] 0 (idx + 1)
            (start + min C (l :: rest).length)
          rw [List.dropLast_cons_of_ne_nil hne, List.mem_cons] at hch
          rcases hch with hch | hch
          · subst hch
            have hlt : min C (l :: rest).length < (l :: rest).length := by
              have hlen2 : ((l :: rest).drop (min C (l :: rest).length)).length
                  = (l :: rest).length - min C (l :: rest).length := List.length_drop _ _
              rw [hd] at hlen2
              have : 0 < (d :: ds).length := by simp
              omega
            show start + min C (l :: rest).length - 1 + 1 - start = C
            have := min_chunk_pos C hC l rest
            omega
          · have hdrop : ((d :: ds : List (List Char)).length) ≤ n := by
              have hlen2 : ((l :: rest).drop (min C (l :: rest).length)).length
                  = (l :: rest).length - min C (l :: rest).length := List.length_drop _ _
              rw [hd] at hlen2
              have := min_chunk_pos C hC l rest
              have : 0 < (l :: rest).length := by simp
              omega
            exact ih _ (idx + 1) (start + min C (l :: rest).length) hdrop ch hch

theorem chunkFileGo_content (fp : List String) (C : Nat) (hC : 0 < C) :
    ∀ (n : Nat) (lines : List (List Char)) (idx start : Nat), lines.length ≤ n →
    ((chunkFileGo fp C lines [] 0 idx start).map (fun ch => ch.content)).flatten
      = (lines.map (· ++ ['\n'])).flatten := by
  intro n
  induction n with
  | zero =>
      intro lines idx start hlen
      have hnil : lines = [] := List.length_eq_zero.mp (by omega)
      subst hnil
      rfl
  | succ n ih =>
      intro lines idx start hlen
      rcases lines with _ | ⟨l, rest⟩
      · rfl
      · rw [chunkFileGo_cons fp C hC]
        have hdrop : (((l :: rest).drop (min C (l :: rest).length)).length) ≤ n := by
          rw [List.length_drop]
          have := min_chunk_pos C hC l rest
          have : 0 < (l :: rest).length := by simp
          omega
        rw [List.map_cons, List.flatten_cons, ih _ (idx + 1) _ hdrop,
          ← List.flatten_append, ← List.map_append, List.take_append_drop]

theorem flatten_map_splitNl (text : List Char) :
    ((splitNl text).map (· ++ ['\n'])).flatten = text ++ ['\n'] := by
  induction text with
  | nil => rfl
  | cons c cs ih =>
      by_cases h : c = '\n'
      · subst h
        have hsp : splitNl ('\n' :: cs) = [] :: splitNl cs := by
          rw [splitNl]
          simp
        rw [hsp, List.map_cons, List.flatten_cons, ih]
        rfl
      · rcases hs : splitNl cs with _ | ⟨l, ls⟩
        · exact absurd hs (splitNl_ne_nil cs)
        · simp only [splitNl, h, if_false]
          rw [hs]
          rw [hs] at ih
          simp only [List.map_cons, List.flatten_cons] at ih
          simp only [List.map_cons, List.flatten_cons, List.cons_append, List.append_assoc] at ih ⊢
          rw [ih]

/-- Ceiling division, used to state chunk counts. -/
def ceilDiv (a b : Nat) : Nat := (a + b - 1) / b

/-- C2 (amended).  For every readable file text and chunk size C > 0,
`chunkFile` returns exactly `ceil(L/C)` chunks where `L` is the number of
newline-separated segments of the text (`L` = number of `'\n'` characters
plus one, so an empty file has `L = 1` and yields one chunk, not zero); the
sequence indices are exactly `0..k-1` strictly increasing; the
`[startLine, endLine]` ranges are contiguous, non-overlapping and exactly
cover `1..L`; every chunk except possibly the last spans exactly `C`
lines; and an unreadable file yields zero chunks. -/
theorem chunkFile_layout (fp : List String) (C : Nat) (text : List Char) (hC : 0 < C) :
    (chunkFile fp (some text) C).length = ceilDiv (splitNl text).length C
    ∧ (chunkFile fp (some text) C).map (fun ch => ch.chunkIndex)
        = List.range (chunkFile fp (some text) C).length
    ∧ ((chunkFile fp (some text) C).map
        (fun ch => List.range' ch.startLine (ch.endLine + 1 - ch.startLine))).flatten
        = List.range' 1 (splitNl text).length
    ∧ (∀ ch ∈ (chunkFile fp (some text) C).dropLast, ch.endLine + 1 - ch.startLine = C)
    ∧ chunkFile fp none C = [] := by
  refine ⟨?_, ?_, ?_, ?_, rfl⟩
  · exact chunkFileGo_length fp C hC (splitNl text).length (splitNl text) 0 1 le_rfl
  · rw [List.range_eq_range']
    exact chunkFileGo_indices fp C hC (splitNl text).length (splitNl text) 0 1 le_rfl
  · exact chunkFileGo_cover fp C hC (splitNl text).length (splitNl text) 0 1 le_rfl
  · exact chunkFileGo_sizes fp C hC (splitNl text).length (splitNl text) 0 1 le_rfl

/-- Witness for C2 at a concrete input: the text "x\ny\nz" (three lines)
with chunk size 2 produces 2 chunks, indices 0 and 1, covering lines 1-3. -/
theorem chunkFile_layout_witness :
    0 < 2
    ∧ ((chunkFile ["a.ts"] (some ['x', '\n', 'y', '\n', 'z']) 2).length
          = ceilDiv (splitNl ['x', '\n', 'y', '\n', 'z']).length 2
        ∧ (chunkFile ["a.ts"] (some ['x', '\n', 'y', '\n', 'z']) 2).map (fun ch => ch.chunkIndex)
            = List.range (chunkFile ["a.ts"] (some ['x', '\n', 'y', '\n', 'z']) 2).length
        ∧ ((chunkFile ["a.ts"] (some ['x', '\n', 'y', '\n', 'z']) 2).map
            (fun ch => List.range' ch.startLine (ch.endLine + 1 - ch.startLine))).flatten
            = List.range' 1 (splitNl ['x', '\n', 'y', '\n', 'z']).length
        ∧ (∀ ch ∈ (chunkFile ["a.ts"] (some ['x', '\n', 'y', '\n', 'z']) 2).dropLast,
            ch.endLine + 1 - ch.startLine = 2)
        ∧ chunkFile ["a.ts"] none 2 = []) :=
  ⟨by decide, chunkFile_layout ["a.ts"] 2 ['x', '\n', 'y', '\n', 'z'] (by decide)⟩

/-- Counterexample for C2 as stated: an empty readable file (content `""`)
yields one chunk — whose content is a single newline — not zero chunks,
because `"".split('\n')` is `[""]`. -/
theorem chunkFile_empty_file_one_chunk :
    ¬ (chunkFile ["empty.ts"] (some []) 500).length = 0
    ∧ (chunkFile ["empty.ts"] (some []) 500).length = 1 := by
  constructor
  · decide
  · decide

/-- C10.  Concatenating in order the `content` fields of the chunks of a
readable file yields the original text with exactly one extra newline
appended: every split segment, including the final one even when the file
does not end in a newline, is stored with a trailing `'\n'`. -/
theorem chunkFile_content_roundtrip (fp : List String) (C : Nat) (text : List Char)
    (hC : 0 < C) :
    ((chunkFile fp (some text) C).map (fun ch => ch.content)).flatten = text ++ ['\n'] := by
  have h := chunkFileGo_content fp C hC (splitNl text).length (splitNl text) 0 1 le_rfl
  exact h.trans (flatten_map_splitNl text)

/-- Witness for C10 at a concrete input: the two-character text "hi" is
returned as the single chunk content "hi\n". -/
theorem chunkFile_content_roundtrip_witness :
    0 < 500
    ∧ ((chunkFile ["a.ts"] (some ['h', 'i']) 500).map (fun ch => ch.content)).flatten
        = ['h', 'i'] ++ ['\n'] :=
  ⟨by decide, chunkFile_content_roundtrip ["a.ts"] 500 ['h', 'i'] (by decide)⟩

/-- Allow-list of file extensions (src/src/utils/chunker.ts lines 14-35). -/
def extensions : List String :=
  [".js", ".ts", ".jsx", ".tsx", ".py", ".java", ".go", ".c", ".cpp", ".h", ".hpp",
   ".cs", ".php", ".rb", ".swift", ".dart", ".json", ".yml", ".html", ".css"]

/-- Node's `path.extname` on a path given as segments: the extension of the
last segment — the substring from the last `'.'` to the end — except that
it is empty when the segment has no `'.'`, when its last `'.'` is the first
character (dotfiles such as `.gitignore`, and `.` itself; with
`base.splitOn "."` this is the case `parts = ["", x]`), or when the segment
is exactly `".."` (the only component Node's `startDot === startPart + 1`
guard excises; `"..ts"` keeps `".ts"` and `"..."` keeps `"."`). -/
def extname (p : List String) : String :=
  let base := p.getLastD ""
  let parts := base.splitOn "."
  if parts.length ≤ 1 then ""
  else if parts.length = 2 ∧ parts.headD "" = "" then ""
  else if base = ".." then ""
  else "." ++ parts.getLastD ""

/-- Embedding of `shouldProcessFile` (chunker.ts lines 13-38): true iff the
lower-cased extension of the path is in the allow-list. -/
def shouldProcessFile (filePath : List String) : Bool :=
  extensions.contains (extname filePath).toLower

/-- Directory names skipped by the walk (chunker.ts lines 79-113). -/
def IGNORED_DIRS : List String :=
  [".git", ".svn", ".hg", "node_modules", "__pycache__", "venv", ".venv", "env",
   "target", "dist", "build", "out", "coverage", "vendor", ".idea", ".vscode",
   "CMakeFiles", "cmake-build-debug"]

/-- Condition under which `walkAndChunkDirectory` recurses into a directory
(chunker.ts line 128): not in the ignore list and not starting with `.`. -/
def allowedDirName (name : String) : Bool :=
  !(IGNORED_DIRS.contains name) && !(name.startsWith ".")

/-- In-memory directory tree over which the walk runs.  Files carry their
text; read failures are not modelled here (they only affect chunk counts,
not which paths are selected). -/
inductive FsEntry where
  | file (name : String) (content : List Char)
  | dir (name : String) (entries : List FsEntry)

mutual

/-- One loop iteration of `processDirectory` inside `walkAndChunkDirectory`
(chunker.ts lines 124-135): a directory entry is recursed into only when
`allowedDirName` holds; a file entry is chunked only when
`shouldProcessFile` accepts its full path. -/
def processEntry (chunkSize : Nat) (dirPath : List String) : FsEntry → List CodeChunk
  | .dir name sub =>
      if allowedDirName name then processDirectory chunkSize (dirPath ++ [name]) sub else []
  | .file name content =>
      if shouldProcessFile (dirPath ++ [name])
      then chunkFile (dirPath ++ [name]) (some content) chunkSize else []

/-- The walk over the entries of one directory, in order, concatenating the
chunks produced for each entry. -/
def processDirectory (chunkSize : Nat) (dirPath : List String) : List FsEntry → List CodeChunk
  | [] => []
  | e :: es => processEntry chunkSize dirPath e ++ processDirectory chunkSize dirPath es

end

/-- Embedding of `walkAndChunkDirectory` (chunker.ts lines 114-142) on an
in-memory tree: walk from the root with an empty path prefix. -/
def walkAndChunkDirectory (chunkSize : Nat) (root : List FsEntry) : List CodeChunk :=
  processDirectory chunkSize [] root

/-- The file found at a segment path (relative to a list of root entries),
together with its content. -/
inductive FindsFileAt : List FsEntry → List String → List Char → Prop
  | fileHere (name : String) (c : List Char) (es : List FsEntry) :
      FindsFileAt (FsEntry.file name c :: es) [name] c
  | dirHere (name : String) (sub es : List FsEntry) (p : List String) (c : List Char) :
      FindsFileAt sub p c → FindsFileAt (FsEntry.dir name sub :: es) (name :: p) c
  | later (e : FsEntry) (es : List FsEntry) (p : List String) (c : List Char) :
      FindsFileAt es p c → FindsFileAt (e :: es) p c

theorem FindsFileAt_ne_nil {root : List FsEntry} {p : List String} {c : List Char}
    (h : FindsFileAt root p c) : p ≠ [] := by
  induction h with
  | fileHere name c es => simp
  | dirHere name sub es p c hsub ih => simp
  | later e es p c h ih => exact ih

theorem chunkFile_some_ne_nil (fp : List String) (C : Nat) (text : List Char) :
    chunkFile fp (some text) C ≠ [] := by
  rcases hs : splitNl text with _ | ⟨l, ls⟩
  · exact absurd hs (splitNl_ne_nil text)
  · show chunkFileGo fp C (splitNl text) [] 0 0 1 ≠ []
    rw [hs]
    exact chunkFileGo_ne_nil fp C l ls [] 0 0 1

theorem chunkFile_filePath (fp : List String) (C : Nat) (text : List Char) :
    ∀ ch ∈ chunkFile fp (some text) C, ch.filePath = fp :=
  chunkFileGo_filePath fp C (splitNl text) [] 0 0 1

theorem sizeOf_FsEntry_pos (e : FsEntry) : 0 < sizeOf e := by
  cases e <;> simp_arith

theorem processDirectory_shape (C : Nat) :
    ∀ (n : Nat) (root : List FsEntry), sizeOf root ≤ n → ∀ (pre : List String)
    (ch : CodeChunk), ch ∈ processDirectory C pre root →
    ∃ q cont, q ≠ [] ∧ ch.filePath = pre ++ q ∧ FindsFileAt root q cont
      ∧ shouldProcessFile (pre ++ q) = true
      ∧ ∀ d ∈ q.dropLast, allowedDirName d = true := by
  intro n
  induction n with
  | zero =>
      intro root hn
      exfalso
      rcases root with _ | ⟨e, es⟩ <;> simp_arith at hn
  | succ n ih =>
      intro root hn pre ch hch
      rcases root with _ | ⟨e, es⟩
      · simp [processDirectory] at hch
      · rw [processDirectory] at hch
        rcases List.mem_append.mp hch with hch | hch
        · rcases e with ⟨name, c⟩ | ⟨name, sub⟩
          · by_cases hsp : shouldProcessFile (pre ++ [name]) = true
            · rw [processEntry, if_pos hsp] at hch
              refine ⟨[name], c, by simp, chunkFile_filePath _ _ _ ch hch,
                FindsFileAt.fileHere name c es, hsp, by simp⟩
            · rw [processEntry, if_neg hsp] at hch
              simp at hch
          · by_cases had : allowedDirName name = true
            · rw [processEntry, if_pos had] at hch
              have hsub : sizeOf sub ≤ n := by
                have h1 := sizeOf_FsEntry_pos (FsEntry.dir name sub)
                simp_arith at hn
                omega
              obtain ⟨q, cont, hq, hfp, hfind, hsp, hdirs⟩ := ih sub hsub (pre ++ [name]) ch hch
              refine ⟨name :: q, cont, by simp, ?_, FindsFileAt.dirHere name sub es q cont hfind,
                ?_, ?_⟩
              · rw [hfp, List.append_assoc]
                rfl
              · rw [← List.singleton_append, ← List.append_assoc]
                exact hsp
              · rw [List.dropLast_cons_of_ne_nil hq]
                intro d hd
                rcases List.mem_cons.mp hd with hd | hd
                · rw [hd]; exact had
                · exact hdirs d hd
            · rw [processEntry, if_neg had] at hch
              simp at hch
        · have hes : sizeOf es ≤ n := by
            have h1 := sizeOf_FsEntry_pos e
            simp_arith at hn
            omega
          obtain ⟨q, cont, hq, hfp, hfind, hsp, hdirs⟩ := ih es hes pre ch hch
          exact ⟨q, cont, hq, hfp, FindsFileAt.later e es q cont hfind, hsp, hdirs⟩

theorem processDirectory_complete (C : Nat) :
    ∀ {root : List FsEntry} {q : List String} {cont : List Char},
    FindsFileAt root q cont → ∀ (pre : List String),
    shouldProcessFile (pre ++ q) = true →
    (∀ d ∈ q.dropLast, allowedDirName d = true) →
    ∃ ch ∈ processDirectory C pre root, ch.filePath = pre ++ q := by
  intro root q cont h
  induction h with
  | fileHere name c es =>
      intro pre hsp hdirs
      obtain ⟨ch, hch⟩ := List.exists_mem_of_ne_nil _ (chunkFile_some_ne_nil (pre ++ [name]) C c)
      refine ⟨ch, ?_, chunkFile_filePath _ _ _ ch hch⟩
      rw [processDirectory]
      apply List.mem_append_left
      rw [processEntry, if_pos hsp]
      exact hch
  | dirHere name sub es p c hsub ihsub =>
      intro pre hsp hdirs
      have hp : p ≠ [] := FindsFileAt_ne_nil hsub
      have had : allowedDirName name = true := by
        apply hdirs
        rw [List.dropLast_cons_of_ne_nil hp]
        exact List.mem_cons_self name _
      have hsp' : shouldProcessFile ((pre ++ [name]) ++ p) = true := by
        rw [List.append_assoc]
        exact hsp
      have hdirs' : ∀ d ∈ p.dropLast, allowedDirName d = true := by
        intro d hd
        apply hdirs
        rw [List.dropLast_cons_of_ne_nil hp]
        exact List.mem_cons_of_mem name hd
      obtain ⟨ch, hch, hfp⟩ := ihsub (pre ++ [name]) hsp' hdirs'
      refine ⟨ch, ?_, ?_⟩
      · rw [processDirectory]
        apply List.mem_append_left
        rw [processEntry, if_pos had]
        exact hch
      · rw [hfp, List.append_assoc]
        rfl
  | later e es p c h ih =>
      intro pre hsp hdirs
      obtain ⟨ch, hch, hfp⟩ := ih pre hsp hdirs
      refine ⟨ch, ?_, hfp⟩
      rw [processDirectory]
      exact List.mem_append_right _ hch

/-- C8.  A path contributes chunks to the walk if and only if it is the
path of a file in the tree, its extension (compared case-insensitively) is
in the fixed allow-list, and no directory segment on the way to it is in
the configured ignore list or starts with `.` — the walk realises the
spec's `shouldInclude` by composing `shouldProcessFile` with the directory
pruning of `walkAndChunkDirectory`. -/
theorem walk_shouldInclude_iff (C : Nat) (root : List FsEntry) (p : List String) :
    (∃ ch ∈ walkAndChunkDirectory C root, ch.filePath = p)
      ↔ ((∃ cont, FindsFileAt root p cont)
          ∧ shouldProcessFile p = true
          ∧ ∀ d ∈ p.dropLast, allowedDirName d = true) := by
  constructor
  · rintro ⟨ch, hch, rfl⟩
    obtain ⟨q, cont, hq, hfp, hfind, hsp, hdirs⟩ :=
      processDirectory_shape C (sizeOf root) root le_rfl [] ch hch
    rw [List.nil_append] at hfp
    rw [hfp]
    rw [List.nil_append] at hsp
    exact ⟨⟨cont, hfind⟩, hsp, hdirs⟩
  · rintro ⟨⟨cont, hfind⟩, hsp, hdirs⟩
    have h := processDirectory_complete C hfind [] (by rw [List.nil_append]; exact hsp) hdirs
    obtain ⟨ch, hch, hfp⟩ := h
    rw [List.nil_append] at hfp
    exact ⟨ch, hch, hfp⟩

/-- Vector metadata (src/src/types/index.ts, `VectorMetadata`): the tenant
identifier `userId` plus the fields the pipeline records; `commit` is
`none` when the job had no pinned revision. -/
structure VectorMetadata where
  repoUrl : String
  filePath : String
  chunkIndex : Nat
  commit : Option String
  userId : String
  startLine : Nat
  endLine : Nat
deriving DecidableEq

/-- A vector record sent to the store (src/src/types/index.ts, `Vector`);
embedding values are opaque numbers. -/
structure Vector where
  id : String
  values : List Rat
  metadata : VectorMetadata
deriving DecidableEq

namespace PineconeService

/-- Constants of the adapter (src/unnamed/part_004 lines 7-11). -/
def INDEX_DIMENSION : Nat := 1536

def MAX_RETRIES : Nat := 12

def RETRY_DELAY_MS : Nat := 5000

def BATCH_SIZE : Nat := 40

/-- `getNamespaceForUser` (part_004 lines 129-131). -/
def getNamespaceForUser (userId : String) : String := "user_" ++ userId

/-- Per-vector normalisation in `processBatch` (part_004 lines 86-93):
`commit` becomes the empty string when absent. -/
def normalizeVector (v : Vector) : Vector :=
  { v with metadata := { v.metadata with commit := some (v.metadata.commit.getD "") } }

/-- One step of the tenant grouping in `upsert` (part_004 lines 193-200):
append the vector to its tenant's group, creating the group at its first
occurrence.  JavaScript object key iteration order is modelled as
first-insertion order; the isolation properties proven below do not depend
on the group order. -/
def insertGrouped (acc : List (String × List Vector)) (v : Vector) :
    List (String × List Vector) :=
  if acc.any (fun p => p.1 = v.metadata.userId) then
    acc.map (fun p => if p.1 = v.metadata.userId then (p.1, p.2 ++ [v]) else p)
  else acc ++ [(v.metadata.userId, [v])]

/-- The `vectorsByUser` grouping built by `reduce` (part_004 lines 193-200). -/
def vectorsByUser (vectors : List Vector) : List (String × List Vector) :=
  vectors.foldl insertGrouped []

/-- Batch slicing of `for (let i = 0; i < n; i += BATCH_SIZE)` over a
tenant's group (part_004 lines 209-217), with the list length as fuel. -/
def toBatchesGo (B : Nat) : Nat → List Vector → List (List Vector)
  | 0, _ => []
  | _ + 1, [] => []
  | fuel + 1, x :: xs => (x :: xs).take B :: toBatchesGo B fuel ((x :: xs).drop B)

def toBatches (B : Nat) (l : List Vector) : List (List Vector) :=
  toBatchesGo B l.length l

/-- Externally visible effect of the adapter: a warn-level log line, a
sleep, or a remote call against the vector store. -/
inductive Action where
  | logWarn
  | listIndexes
  | createIndex (name : String)
  | describeIndex (name : String)
  | delayMs (ms : Nat)
  | nsUpsert (ns : String) (batch : List Vector)
  | nsQuery (ns : String) (topK : Nat)
  | describeStats
deriving DecidableEq

/-- Whether an action contacts the remote store (everything except logging
and sleeping). -/
def Action.isRemote : Action → Bool
  | .logWarn => false
  | .delayMs _ => false
  | _ => true

/-- Whether an action is a namespace upsert request. -/
def Action.isNsUpsert : Action → Bool
  | .nsUpsert _ _ => true
  | _ => false

/-- Outcome of one `describeIndex` poll while a new index is provisioning. -/
inductive DescribeOutcome where
  | ready
  | notReady
  | err404
  | errOther
deriving DecidableEq

/-- Abstract remote environment for `init`: whether the configured index
already exists, the outcome of the i-th readiness poll, and the dimension
and metric of the existing index. -/
structure PineconeEnv where
  indexExists : Bool
  poll : Nat → DescribeOutcome
  existingDimension : Nat
  existingMetric : String

/-- Adapter state: the service's `initialized` flag. -/
structure AdapterState where
  initialized : Bool
deriving DecidableEq

/-- Provisioning failure message (part_004 lines 74-76). -/
def provisioningMsg (indexName : String) : String :=
  "Index " ++ indexName ++ " did not become ready after " ++ toString MAX_RETRIES ++ " retries"

/-- Dimension-mismatch failure message of `validateExistingIndex`
(part_004 lines 31-40). -/
def dimensionMsg (indexName : String) (found : Nat) : String :=
  "Index " ++ indexName ++ " has dimension " ++ toString found ++ ", expected "
    ++ toString INDEX_DIMENSION

/-- The retry loop of `waitForIndexReady` (part_004 lines 50-77), with the
remaining attempt budget as fuel and `retries` the index of the next poll.
Each attempt issues one `describeIndex`; a ready status returns at once; a
404 error is retried silently while any other error logs a warning before
the retry; every attempt that does not return sleeps `RETRY_DELAY_MS`.
When the budget is exhausted the provisioning error is thrown. -/
def waitForIndexReadyGo (indexName : String) (poll : Nat → DescribeOutcome) :
    Nat → Nat → Except String Unit × List Action
  | _, 0 => (.error (provisioningMsg indexName), [])
  | retries, fuel + 1 =>
      match poll retries with
      | .ready => (.ok (), [.describeIndex indexName])
      | .errOther =>
          let r := waitForIndexReadyGo indexName poll (retries + 1) fuel
          (r.1, .describeIndex indexName :: .logWarn :: .delayMs RETRY_DELAY_MS :: r.2)
      | _ =>
          let r := waitForIndexReadyGo indexName poll (retries + 1) fuel
          (r.1, .describeIndex indexName :: .delayMs RETRY_DELAY_MS :: r.2)

def waitForIndexReady (indexName : String) (poll : Nat → DescribeOutcome) :
    Except String Unit × List Action :=
  waitForIndexReadyGo indexName poll 0 MAX_RETRIES

/-- `init` (part_004 lines 133-179): list the indexes; when the configured
index is absent, create it and wait for readiness; otherwise describe and
validate it — a dimension mismatch is fatal, a metric mismatch only logs a
warning. -/
def init (env : PineconeEnv) (indexName : String) : Except String Unit × List Action :=
  if env.indexExists then
    if env.existingDimension = INDEX_DIMENSION then
      (.ok (), [.listIndexes, .describeIndex indexName]
        ++ if env.existingMetric = "cosine" then [] else [.logWarn])
    else
      (.error (dimensionMsg indexName env.existingDimension),
        [.listIndexes, .describeIndex indexName])
  else
    let r := waitForIndexReady indexName env.poll
    (r.1, [.listIndexes, .createIndex indexName] ++ r.2)

/-- `ensureInitialized` (part_004 lines 119-127): lazily initialise when the
flag is not set, logging a warning first, and propagate any failure. -/
def ensureInitialized (env : PineconeEnv) (indexName : String) (s : AdapterState) :
    Except String AdapterState × List Action :=
  if s.initialized then (.ok s, [])
  else
    let r := init env indexName
    match r.1 with
    | .ok _ => (.ok ⟨true⟩, .logWarn :: r.2)
    | .error e => (.error e, .logWarn :: r.2)

/-- `upsert` (part_004 lines 181-232): an empty input returns at once with
only a warning log; otherwise initialisation is ensured, the vectors are
grouped by tenant, and each tenant's group is written in `BATCH_SIZE`
batches to that tenant's namespace with per-vector commit normalisation. -/
def upsert (env : PineconeEnv) (indexName : String) (s : AdapterState)
    (vectors : List Vector) : Except String AdapterState × List Action :=
  if vectors.length = 0 then (.ok s, [.logWarn])
  else
    let r := ensureInitialized env indexName s
    match r.1 with
    | .error e => (.error e, r.2)
    | .ok s' =>
        let upsertActs := (vectorsByUser vectors).flatMap (fun g =>
          (toBatches BATCH_SIZE g.2).map (fun b =>
            Action.nsUpsert (getNamespaceForUser g.1) (b.map normalizeVector)))
        (.ok s', r.2 ++ upsertActs)

/-- `query` (part_004 lines 234-267): ensure initialisation, then query only
the calling tenant's own namespace. -/
def query (env : PineconeEnv) (indexName : String) (s : AdapterState)
    (userId : String) (topK : Nat) : Except String AdapterState × List Action :=
  let r := ensureInitialized env indexName s
  match r.1 with
  | .error e => (.error e, r.2)
  | .ok s' => (.ok s', r.2 ++ [Action.nsQuery (getNamespaceForUser userId) topK])

/-- Abstract remote store content: the vectors held per namespace. -/
def Store := String → List Vector

/-- Effect of an adapter action on the store: a namespace upsert replaces
the records with matching ids in that namespace and appends the batch; no
other action writes. -/
def applyAction (st : Store) : Action → Store
  | .nsUpsert ns batch => fun n =>
      if n = ns then
        (st n).filter (fun v => !((batch.map (fun w => w.id)).contains v.id)) ++ batch
      else st n
  | _ => st

def applyActions (st : Store) (acts : List Action) : Store :=
  acts.foldl applyAction st

/-- The namespace a tenant-scoped query reads; any actual query response is
a sub-selection of this list. -/
def queryResult (st : Store) (userId : String) : List Vector :=
  st (getNamespaceForUser userId)

/-- Tenant-isolation invariant of the store: every vector held in the
namespace of tenant `u` carries `u` in its metadata. -/
def StoreInv (st : Store) : Prop :=
  ∀ u v, v ∈ st (getNamespaceForUser u) → v.metadata.userId = u

/-- Number of `describeIndex` calls for the given index in an action list. -/
def countDescribe (indexName : String) (acts : List Action) : Nat :=
  acts.countP (fun a => a = Action.describeIndex indexName)

theorem getNamespaceForUser_inj {a b : String}
    (h : getNamespaceForUser a = getNamespaceForUser b) : a = b := by
  have hd := congrArg String.data h
  simp only [getNamespaceForUser, String.data_append] at hd
  exact String.ext (List.append_cancel_left hd)

theorem normalizeVector_userId (v : Vector) :
    (normalizeVector v).metadata.userId = v.metadata.userId := rfl

theorem insertGrouped_inv (acc : List (String × List Vector)) (w : Vector)
    (hacc : ∀ g ∈ acc, ∀ v ∈ g.2, v.metadata.userId = g.1) :
    ∀ g ∈ insertGrouped acc w, ∀ v ∈ g.2, v.metadata.userId = g.1 := by
  intro g hg v hv
  by_cases h : acc.any (fun p => p.1 = w.metadata.userId)
  · rw [insertGrouped, if_pos h] at hg
    obtain ⟨p, hp, hfp⟩ := List.mem_map.mp hg
    by_cases hk : p.1 = w.metadata.userId
    · rw [if_pos hk] at hfp
      subst hfp
      rcases List.mem_append.mp hv with hv | hv
      · exact hacc p hp v hv
      · have hvw := List.mem_singleton.mp hv
        subst hvw
        exact hk.symm
    · rw [if_neg hk] at hfp
      subst hfp
      exact hacc p hp v hv
  · rw [insertGrouped, if_neg h] at hg
    rcases List.mem_append.mp hg with hg | hg
    · exact hacc g hg v hv
    · have hgw := List.mem_singleton.mp hg
      subst hgw
      have hvw := List.mem_singleton.mp hv
      subst hvw
      rfl

theorem vectorsByUser_inv (vectors : List Vector) :
    ∀ g ∈ vectorsByUser vectors, ∀ v ∈ g.2, v.metadata.userId = g.1 := by
  suffices h : ∀ (vs : List Vector) (acc : List (String × List Vector)),
      (∀ g ∈ acc, ∀ v ∈ g.2, v.metadata.userId = g.1) →
      ∀ g ∈ vs.foldl insertGrouped acc, ∀ v ∈ g.2, v.metadata.userId = g.1 by
    exact h vectors [] (by simp)
  intro vs
  induction vs with
  | nil => intro acc hacc; exact hacc
  | cons w ws ih =>
      intro acc hacc
      exact ih (insertGrouped acc w) (insertGrouped_inv acc w hacc)

theorem insertGrouped_mem_new (acc : List (String × List Vector)) (w : Vector) :
    ∃ g ∈ insertGrouped acc w, g.1 = w.metadata.userId ∧ w ∈ g.2 := by
  by_cases h : acc.any (fun p => p.1 = w.metadata.userId)
  · obtain ⟨p, hp, hpk⟩ := List.any_eq_true.mp h
    have hk : p.1 = w.metadata.userId := of_decide_eq_true hpk
    refine ⟨(p.1, p.2 ++ [w]), ?_, hk, by simp⟩
    rw [insertGrouped, if_pos h]
    have hm : (if p.1 = w.metadata.userId then (p.1, p.2 ++ [w]) else p)
        ∈ acc.map (fun q => if q.1 = w.metadata.userId then (q.1, q.2 ++ [w]) else q) :=
      List.mem_map_of_mem _ hp
    rw [if_pos hk] at hm
    exact hm
  · refine ⟨(w.metadata.userId, [w]), ?_, rfl, by simp⟩
    rw [insertGrouped, if_neg h]
    simp

theorem insertGrouped_mem_keep (acc : List (String × List Vector)) (w v : Vector)
    (g : String × List Vector) (hg : g ∈ acc) (hv : v ∈ g.2) :
    ∃ g' ∈ insertGrouped acc w, g'.1 = g.1 ∧ v ∈ g'.2 := by
  by_cases h : acc.any (fun p => p.1 = w.metadata.userId)
  · by_cases hk : g.1 = w.metadata.userId
    · refine ⟨(g.1, g.2 ++ [w]), ?_, rfl, by simp [hv]⟩
      rw [insertGrouped, if_pos h]
      have hm : (if g.1 = w.metadata.userId then (g.1, g.2 ++ [w]) else g)
          ∈ acc.map (fun q => if q.1 = w.metadata.userId then (q.1, q.2 ++ [w]) else q) :=
        List.mem_map_of_mem _ hg
      rw [if_pos hk] at hm
      exact hm
    · refine ⟨g, ?_, rfl, hv⟩
      rw [insertGrouped, if_pos h]
      have hm : (if g.1 = w.metadata.userId then (g.1, g.2 ++ [w]) else g)
          ∈ acc.map (fun q => if q.1 = w.metadata.userId then (q.1, q.2 ++ [w]) else q) :=
        List.mem_map_of_mem _ hg
      rw [if_neg hk] at hm
      exact hm
  · refine ⟨g, ?_, rfl, hv⟩
    rw [insertGrouped, if_neg h]
    exact List.mem_append_left _ hg

theorem foldl_insertGrouped_keep :
    ∀ (vs : List Vector) (acc : List (String × List Vector)) (g : String × List Vector)
      (v : Vector), g ∈ acc → v ∈ g.2 →
    ∃ g' ∈ vs.foldl insertGrouped acc, g'.1 = g.1 ∧ v ∈ g'.2 := by
  intro vs
  induction vs with
  | nil => intro acc g v hg hv; exact ⟨g, hg, rfl, hv⟩
  | cons w ws ih =>
      intro acc g v hg hv
      obtain ⟨g1, hg1, hk1, hv1⟩ := insertGrouped_mem_keep acc w v g hg hv
      obtain ⟨g2, hg2, hk2, hv2⟩ := ih (insertGrouped acc w) g1 v hg1 hv1
      exact ⟨g2, hg2, hk2.trans hk1, hv2⟩

theorem vectorsByUser_complete (vectors : List Vector) :
    ∀ v ∈ vectors, ∃ g ∈ vectorsByUser vectors, g.1 = v.metadata.userId ∧ v ∈ g.2 := by
  suffices h : ∀ (vs : List Vector) (acc : List (String × List Vector)) (v : Vector),
      v ∈ vs → ∃ g ∈ vs.foldl insertGrouped acc, g.1 = v.metadata.userId ∧ v ∈ g.2 by
    intro v hv
    exact h vectors [] v hv
  intro vs
  induction vs with
  | nil => intro acc v hv; simp at hv
  | cons w ws ih =>
      intro acc v hv
      rcases List.mem_cons.mp hv with hvw | hv
      · subst hvw
        obtain ⟨g1, hg1, hk1, hv1⟩ := insertGrouped_mem_new acc v
        obtain ⟨g2, hg2, hk2, hv2⟩ := foldl_insertGrouped_keep ws (insertGrouped acc v) g1 v hg1 hv1
        exact ⟨g2, hg2, hk2.trans hk1, hv2⟩
      · exact ih (insertGrouped acc w) v hv

theorem toBatchesGo_flatten (B : Nat) (hB : 0 < B) :
    ∀ (fuel : Nat) (l : List Vector), l.length ≤ fuel →
    (toBatchesGo B fuel l).flatten = l := by
  intro fuel
  induction fuel with
  | zero =>
      intro l hl
      have hnil : l = [] := List.length_eq_zero.mp (by omega)
      subst hnil
      rfl
  | succ n ih =>
      intro l hl
      rcases l with _ | ⟨x, xs⟩
      · rfl
      · rw [toBatchesGo, List.flatten_cons,
          ih ((x :: xs).drop B) (by rw [List.length_drop]; simp only [List.length_cons] at hl ⊢; omega),
          List.take_append_drop]

theorem toBatches_flatten (B : Nat) (hB : 0 < B) (l : List Vector) :
    (toBatches B l).flatten = l :=
  toBatchesGo_flatten B hB l.length l le_rfl

theorem mem_of_mem_toBatches (B : Nat) (hB : 0 < B) (l b : List Vector)
    (hb : b ∈ toBatches B l) (v : Vector) (hv : v ∈ b) : v ∈ l := by
  rw [← toBatches_flatten B hB l]
  exact List.mem_flatten.mpr ⟨b, hb, hv⟩

theorem exists_mem_toBatches (B : Nat) (hB : 0 < B) (l : List Vector) (v : Vector)
    (hv : v ∈ l) : ∃ b ∈ toBatches B l, v ∈ b := by
  rw [← toBatches_flatten B hB l] at hv
  exact List.mem_flatten.mp hv

theorem applyActions_inv :
    ∀ (acts : List Action) (st : Store), StoreInv st →
    (∀ ns b, Action.nsUpsert ns b ∈ acts →
      ∃ u, ns = getNamespaceForUser u ∧ ∀ v ∈ b, v.metadata.userId = u) →
    StoreInv (applyActions st acts) := by
  intro acts
  induction acts with
  | nil => intro st hst _; exact hst
  | cons a rest ih =>
      intro st hst hacts
      have hstep : StoreInv (applyAction st a) := by
        cases a with
        | nsUpsert ns b =>
            obtain ⟨u0, hns, hb⟩ := hacts ns b (List.mem_cons_self _ _)
            intro u v hv
            simp only [applyAction] at hv
            by_cases h : getNamespaceForUser u = ns
            · rw [if_pos h] at hv
              rcases List.mem_append.mp hv with hv | hv
              · exact hst u v (List.mem_filter.mp hv).1
              · have hu : u = u0 := getNamespaceForUser_inj (h.trans hns)
                rw [hu]
                exact hb v hv
            · rw [if_neg h] at hv
              exact hst u v hv
        | logWarn => exact hst
        | listIndexes => exact hst
        | createIndex nm => exact hst
        | describeIndex nm => exact hst
        | delayMs ms => exact hst
        | nsQuery ns k => exact hst
        | describeStats => exact hst
      exact ih (applyAction st a) hstep (fun ns b hb => hacts ns b (List.mem_cons_of_mem a hb))

/-- C1.  On an initialised adapter, `upsert` partitions its input by the
tenant identifier stored in each vector's metadata and issues every batch
only to that tenant's namespace `user_<tenantId>`: (1) every namespace
upsert request targets `user_<u>` for some tenant `u` and carries only
vectors whose metadata `userId` is `u`; (2) every input vector is written
(commit-normalised) to its own tenant's namespace; (3) vectors of two
different tenants are never written to the same namespace; (4) applying the
requests to a store satisfying the tenant-isolation invariant preserves it;
(5) hence a tenant-scoped query (which reads only `user_<tenantId>`) never
returns a vector carrying a different tenant identifier. -/
theorem upsert_tenant_isolation (env : PineconeEnv) (indexName : String)
    (s : AdapterState) (vectors : List Vector) (st : Store)
    (hs : s.initialized = true) (hinv : StoreInv st) :
    (∀ ns b, Action.nsUpsert ns b ∈ (upsert env indexName s vectors).2 →
        ∃ u, ns = getNamespaceForUser u ∧ ∀ v ∈ b, v.metadata.userId = u)
    ∧ (∀ v ∈ vectors, ∃ b, Action.nsUpsert (getNamespaceForUser v.metadata.userId) b
          ∈ (upsert env indexName s vectors).2 ∧ normalizeVector v ∈ b)
    ∧ (∀ ns ns' b b' v w, Action.nsUpsert ns b ∈ (upsert env indexName s vectors).2 →
        Action.nsUpsert ns' b' ∈ (upsert env indexName s vectors).2 →
        v ∈ b → w ∈ b' → v.metadata.userId ≠ w.metadata.userId → ns ≠ ns')
    ∧ StoreInv (applyActions st (upsert env indexName s vectors).2)
    ∧ (∀ u v, v ∈ queryResult (applyActions st (upsert env indexName s vectors).2) u →
        v.metadata.userId = u) := by
  have hB : 0 < BATCH_SIZE := by decide
  have hKey : ∀ ns b, Action.nsUpsert ns b ∈ (upsert env indexName s vectors).2 →
      ∃ u, ns = getNamespaceForUser u ∧ ∀ v ∈ b, v.metadata.userId = u := by
    intro ns b hb
    by_cases hv0 : vectors.length = 0
    · rw [upsert, if_pos hv0] at hb
      simp at hb
    · rw [upsert, if_neg hv0] at hb
      simp only [ensureInitialized, if_pos hs] at hb
      simp only [List.nil_append] at hb
      obtain ⟨g, hg, hmap⟩ := List.mem_flatMap.mp hb
      obtain ⟨bb, hbb, heq⟩ := List.mem_map.mp hmap
      injection heq with hns hbatch
      refine ⟨g.1, hns.symm, ?_⟩
      intro v hvb
      rw [← hbatch] at hvb
      obtain ⟨w, hw, hwv⟩ := List.mem_map.mp hvb
      rw [← hwv, normalizeVector_userId]
      exact vectorsByUser_inv vectors g hg w (mem_of_mem_toBatches BATCH_SIZE hB g.2 bb hbb w hw)
  refine ⟨hKey, ?_, ?_, ?_, ?_⟩
  · intro v hvv
    have hv0 : ¬ vectors.length = 0 := by
      intro h
      rw [List.length_eq_zero.mp h] at hvv
      simp at hvv
    obtain ⟨g, hg, hk, hvg⟩ := vectorsByUser_complete vectors v hvv
    obtain ⟨bb, hbb, hvbb⟩ := exists_mem_toBatches BATCH_SIZE hB g.2 v hvg
    refine ⟨bb.map normalizeVector, ?_, List.mem_map_of_mem normalizeVector hvbb⟩
    rw [upsert, if_neg hv0]
    simp only [ensureInitialized, if_pos hs]
    simp only [List.nil_append]
    apply List.mem_flatMap.mpr
    refine ⟨g, hg, ?_⟩
    rw [← hk]
    exact List.mem_map_of_mem _ hbb
  · intro ns ns' b b' v w hb hb' hvb hwb' hne hnseq
    obtain ⟨u, hu, hbu⟩ := hKey ns b hb
    obtain ⟨u', hu', hbu'⟩ := hKey ns' b' hb'
    apply hne
    rw [hbu v hvb, hbu' w hwb']
    exact getNamespaceForUser_inj ((hu.symm.trans (hnseq ▸ hu')))
  · exact applyActions_inv (upsert env indexName s vectors).2 st hinv hKey
  · intro u v hv
    exact applyActions_inv (upsert env indexName s vectors).2 st hinv hKey u v hv

/-- Sample data for the C1 witness: an initialised adapter, an empty
store, and two vectors belonging to two different tenants. -/
def sampleEnv : PineconeEnv := ⟨true, fun _ => DescribeOutcome.ready, 1536, "cosine"⟩

def sampleState : AdapterState := ⟨true⟩

def sampleVecA : Vector := ⟨"a1", [], ⟨"repoA", "src/a.ts", 0, none, "alice", 1, 3⟩⟩

def sampleVecB : Vector := ⟨"b1", [], ⟨"repoB", "src/b.ts", 0, some "c0ffee", "bob", 1, 2⟩⟩

def emptyStore : Store := fun _ => []

/-- Witness for C1 at a concrete input: one upsert call carrying a vector
of tenant "alice" and a vector of tenant "bob". -/
theorem upsert_tenant_isolation_witness :
    sampleState.initialized = true
    ∧ StoreInv emptyStore
    ∧ ((∀ ns b, Action.nsUpsert ns b
          ∈ (upsert sampleEnv "idx" sampleState [sampleVecA, sampleVecB]).2 →
          ∃ u, ns = getNamespaceForUser u ∧ ∀ v ∈ b, v.metadata.userId = u)
      ∧ (∀ v ∈ [sampleVecA, sampleVecB], ∃ b,
            Action.nsUpsert (getNamespaceForUser v.metadata.userId) b
              ∈ (upsert sampleEnv "idx" sampleState [sampleVecA, sampleVecB]).2
            ∧ normalizeVector v ∈ b)
      ∧ (∀ ns ns' b b' v w, Action.nsUpsert ns b
            ∈ (upsert sampleEnv "idx" sampleState [sampleVecA, sampleVecB]).2 →
          Action.nsUpsert ns' b'
            ∈ (upsert sampleEnv "idx" sampleState [sampleVecA, sampleVecB]).2 →
          v ∈ b → w ∈ b' → v.metadata.userId ≠ w.metadata.userId → ns ≠ ns')
      ∧ StoreInv (applyActions emptyStore
          (upsert sampleEnv "idx" sampleState [sampleVecA, sampleVecB]).2)
      ∧ (∀ u v, v ∈ queryResult (applyActions emptyStore
            (upsert sampleEnv "idx" sampleState [sampleVecA, sampleVecB]).2) u →
          v.metadata.userId = u)) :=
  ⟨rfl, fun u v h => absurd h (List.not_mem_nil v),
    upsert_tenant_isolation sampleEnv "idx" sampleState [sampleVecA, sampleVecB]
      emptyStore rfl (fun u v h => absurd h (List.not_mem_nil v))⟩

/-- C6.  Upserting an empty vector list is a success no-op: the adapter
returns before `ensureInitialized`, emitting only a warning log, so no
remote call of any kind is issued — no initialisation attempt, no index
creation or description, and no upsert request. -/
theorem upsert_empty_noop (env : PineconeEnv) (indexName : String) (s : AdapterState) :
    upsert env indexName s [] = (.ok s, [Action.logWarn])
    ∧ Action.logWarn.isRemote = false :=
  ⟨rfl, rfl⟩

theorem waitGo_zero (n : String) (poll : Nat → DescribeOutcome) (r : Nat) :
    waitForIndexReadyGo n poll r 0 = (.error (provisioningMsg n), []) := rfl

theorem waitGo_ready_eq (n : String) (poll : Nat → DescribeOutcome) (r fuel : Nat)
    (h : poll r = .ready) :
    waitForIndexReadyGo n poll r (fuel + 1) = (.ok (), [.describeIndex n]) := by
  simp [waitForIndexReadyGo, h]

theorem waitGo_step_result (n : String) (poll : Nat → DescribeOutcome) (r fuel : Nat)
    (h : poll r ≠ .ready) :
    (waitForIndexReadyGo n poll r (fuel + 1)).1
      = (waitForIndexReadyGo n poll (r + 1) fuel).1 := by
  cases hp : poll r <;> simp [waitForIndexReadyGo, hp] at h ⊢

theorem waitGo_step_acts (n : String) (poll : Nat → DescribeOutcome) (r fuel : Nat)
    (h : poll r ≠ .ready) :
    (waitForIndexReadyGo n poll r (fuel + 1)).2 =
      .describeIndex n :: ((if poll r = .errOther then [Action.logWarn] else [])
        ++ .delayMs RETRY_DELAY_MS :: (waitForIndexReadyGo n poll (r + 1) fuel).2) := by
  cases hp : poll r <;> simp [waitForIndexReadyGo, hp] at h ⊢

theorem waitGo_ok_iff (n : String) (poll : Nat → DescribeOutcome) :
    ∀ (fuel r : Nat), (waitForIndexReadyGo n poll r fuel).1 = .ok ()
      ↔ ∃ i, i < fuel ∧ poll (r + i) = .ready := by
  intro fuel
  induction fuel with
  | zero =>
      intro r
      simp [waitGo_zero]
  | succ fuel ih =>
      intro r
      by_cases hp : poll r = .ready
      · constructor
        · intro _
          exact ⟨0, by omega, by rw [Nat.add_zero]; exact hp⟩
        · intro _
          rw [waitGo_ready_eq n poll r fuel hp]
      · rw [waitGo_step_result n poll r fuel hp, ih (r + 1)]
        constructor
        · rintro ⟨i, hi, hpi⟩
          refine ⟨i + 1, by omega, ?_⟩
          rw [show r + (i + 1) = r + 1 + i by omega]
          exact hpi
        · rintro ⟨i, hi, hpi⟩
          rcases i with _ | j
          · rw [Nat.add_zero] at hpi
            exact absurd hpi hp
          · refine ⟨j, by omega, ?_⟩
            rw [show r + 1 + j = r + (j + 1) by omega]
            exact hpi

theorem waitGo_countDescribe_le (n : String) (poll : Nat → DescribeOutcome) :
    ∀ (fuel r : Nat), countDescribe n (waitForIndexReadyGo n poll r fuel).2 ≤ fuel := by
  intro fuel
  induction fuel with
  | zero =>
      intro r
      simp [waitGo_zero, countDescribe]
  | succ fuel ih =>
      intro r
      by_cases hp : poll r = .ready
      · rw [waitGo_ready_eq n poll r fuel hp]
        simp [countDescribe]
      · rw [waitGo_step_acts n poll r fuel hp]
        have h := ih (r + 1)
        simp only [countDescribe, List.countP_cons, List.countP_append] at h ⊢
        split <;> simp <;> omega

theorem waitGo_exhaust (n : String) (poll : Nat → DescribeOutcome) :
    ∀ (fuel r : Nat), (∀ i, i < fuel → poll (r + i) ≠ .ready) →
    (waitForIndexReadyGo n poll r fuel).1 = .error (provisioningMsg n)
    ∧ countDescribe n (waitForIndexReadyGo n poll r fuel).2 = fuel := by
  intro fuel
  induction fuel with
  | zero =>
      intro r _
      exact ⟨rfl, rfl⟩
  | succ fuel ih =>
      intro r hnr
      have hp : poll r ≠ .ready := by
        have := hnr 0 (by omega)
        rwa [Nat.add_zero] at this
      have hshift : ∀ i, i < fuel → poll (r + 1 + i) ≠ .ready := by
        intro i hi
        have := hnr (i + 1) (by omega)
        rwa [show r + (i + 1) = r + 1 + i by omega] at this
      obtain ⟨h1, h2⟩ := ih (r + 1) hshift
      constructor
      · rw [waitGo_step_result n poll r fuel hp]
        exact h1
      · rw [waitGo_step_acts n poll r fuel hp]
        simp only [countDescribe, List.countP_cons, List.countP_append] at h2 ⊢
        split <;> simp <;> omega

theorem waitGo_delay (n : String) (poll : Nat → DescribeOutcome) :
    ∀ (fuel r ms : Nat), Action.delayMs ms ∈ (waitForIndexReadyGo n poll r fuel).2 →
    ms = RETRY_DELAY_MS := by
  intro fuel
  induction fuel with
  | zero =>
      intro r ms h
      simp [waitGo_zero] at h
  | succ fuel ih =>
      intro r ms h
      by_cases hp : poll r = .ready
      · rw [waitGo_ready_eq n poll r fuel hp] at h
        simp at h
      · rw [waitGo_step_acts n poll r fuel hp] at h
        rcases List.mem_cons.mp h with h | h
        · exact absurd h (by simp)
        · rcases List.mem_append.mp h with h | h
          · split at h <;> simp at h
          · rcases List.mem_cons.mp h with h | h
            · injection h
            · exact ih (r + 1) ms h

theorem waitGo_silent (n : String) (poll : Nat → DescribeOutcome) :
    ∀ (fuel r : Nat), (∀ i, i < fuel → poll (r + i) ≠ .errOther) →
    Action.logWarn ∉ (waitForIndexReadyGo n poll r fuel).2 := by
  intro fuel
  induction fuel with
  | zero =>
      intro r _
      simp [waitGo_zero]
  | succ fuel ih =>
      intro r hno
      by_cases hp : poll r = .ready
      · rw [waitGo_ready_eq n poll r fuel hp]
        simp
      · rw [waitGo_step_acts n poll r fuel hp]
        have h0 : poll r ≠ .errOther := by
          have := hno 0 (by omega)
          rwa [Nat.add_zero] at this
        intro hmem
        rcases List.mem_cons.mp hmem with h | h
        · injection h
        · rcases List.mem_append.mp h with h | h
          · rw [if_neg h0] at h
            simp at h
          · rcases List.mem_cons.mp h with h | h
            · injection h
            · have hshift : ∀ i, i < fuel → poll (r + 1 + i) ≠ .errOther := by
                intro i hi
                have := hno (i + 1) (by omega)
                rwa [show r + (i + 1) = r + 1 + i by omega] at this
              exact ih (r + 1) hshift h

theorem waitGo_warn (n : String) (poll : Nat → DescribeOutcome) (fuel r : Nat)
    (hf : 0 < fuel) (h : poll r = .errOther) :
    Action.logWarn ∈ (waitForIndexReadyGo n poll r fuel).2 := by
  rcases fuel with _ | fuel
  · omega
  · rw [waitGo_step_acts n poll r fuel (by rw [h]; intro hc; injection hc)]
    rw [if_pos h]
    simp

theorem waitGo_no_upsert (n : String) (poll : Nat → DescribeOutcome) :
    ∀ (fuel r : Nat), ∀ a ∈ (waitForIndexReadyGo n poll r fuel).2, a.isNsUpsert = false := by
  intro fuel
  induction fuel with
  | zero =>
      intro r a ha
      simp [waitGo_zero] at ha
  | succ fuel ih =>
      intro r a ha
      by_cases hp : poll r = .ready
      · rw [waitGo_ready_eq n poll r fuel hp] at ha
        simp at ha
        rw [ha]
        rfl
      · rw [waitGo_step_acts n poll r fuel hp] at ha
        rcases List.mem_cons.mp ha with h | h
        · rw [h]; rfl
        · rcases List.mem_append.mp h with h | h
          · split at h <;> simp at h
            rw [h]; rfl
          · rcases List.mem_cons.mp h with h | h
            · rw [h]; rfl
            · exact ih (r + 1) a h

/-- C7.  When a new index is created, the adapter polls `describeIndex` at
most `MAX_RETRIES` (12) times with every sleep between polls equal to
`RETRY_DELAY_MS` (5000 ms); the wait succeeds exactly when some poll among
the first 12 reports ready; when none does, the wait fails with the
provisioning error after exactly 12 polls; a 404 poll outcome is retried
with no warning logged while any other polling error logs a warning; and
when initialisation fails this way on a lazily-initialising `upsert`, the
error propagates and no namespace upsert request is ever issued. -/
theorem init_provisioning_spec (env : PineconeEnv) (indexName : String)
    (s : AdapterState) (vectors : List Vector) :
    countDescribe indexName (waitForIndexReady indexName env.poll).2 ≤ MAX_RETRIES
    ∧ (∀ ms, Action.delayMs ms ∈ (waitForIndexReady indexName env.poll).2 →
        ms = RETRY_DELAY_MS)
    ∧ ((waitForIndexReady indexName env.poll).1 = .ok ()
        ↔ ∃ i, i < MAX_RETRIES ∧ env.poll i = .ready)
    ∧ ((∀ i, i < MAX_RETRIES → env.poll i ≠ .ready) →
        (waitForIndexReady indexName env.poll).1 = .error (provisioningMsg indexName)
        ∧ countDescribe indexName (waitForIndexReady indexName env.poll).2 = MAX_RETRIES)
    ∧ ((∀ i, i < MAX_RETRIES → env.poll i ≠ .errOther) →
        Action.logWarn ∉ (waitForIndexReady indexName env.poll).2)
    ∧ (env.poll 0 = .errOther → Action.logWarn ∈ (waitForIndexReady indexName env.poll).2)
    ∧ (env.indexExists = false → s.initialized = false → vectors ≠ [] →
        (∀ i, i < MAX_RETRIES → env.poll i ≠ .ready) →
        (upsert env indexName s vectors).1 = .error (provisioningMsg indexName)
        ∧ (upsert env indexName s vectors).2.filter (fun a => a.isNsUpsert) = []) := by
  refine ⟨waitGo_countDescribe_le indexName env.poll MAX_RETRIES 0,
    fun ms h => waitGo_delay indexName env.poll MAX_RETRIES 0 ms h, ?_, ?_, ?_, ?_, ?_⟩
  · rw [waitForIndexReady, waitGo_ok_iff indexName env.poll MAX_RETRIES 0]
    constructor
    · rintro ⟨i, hi, hp⟩
      rw [Nat.zero_add] at hp
      exact ⟨i, hi, hp⟩
    · rintro ⟨i, hi, hp⟩
      refine ⟨i, hi, ?_⟩
      rw [Nat.zero_add]
      exact hp
  · intro hnr
    exact waitGo_exhaust indexName env.poll MAX_RETRIES 0
      (fun i hi => by rw [Nat.zero_add]; exact hnr i hi)
  · intro hno
    exact waitGo_silent indexName env.poll MAX_RETRIES 0
      (fun i hi => by rw [Nat.zero_add]; exact hno i hi)
  · intro h0
    exact waitGo_warn indexName env.poll MAX_RETRIES 0 (by decide) h0
  · intro hex hsi hne hnr
    have hw := waitGo_exhaust indexName env.poll MAX_RETRIES 0
      (fun i hi => by rw [Nat.zero_add]; exact hnr i hi)
    have hlen : ¬ vectors.length = 0 := by
      intro h
      exact hne (List.length_eq_zero.mp h)
    have hinit : init env indexName
        = (.error (provisioningMsg indexName),
            [.listIndexes, .createIndex indexName]
              ++ (waitForIndexReady indexName env.poll).2) := by
      rw [init, if_neg (by rw [hex]; intro hc; exact Bool.noConfusion hc)]
      show ((waitForIndexReady indexName env.poll).1,
        [Action.listIndexes, Action.createIndex indexName]
          ++ (waitForIndexReady indexName env.poll).2) = _
      rw [show (waitForIndexReady indexName env.poll).1
          = .error (provisioningMsg indexName) from hw.1]
    have hens : ensureInitialized env indexName s
        = (.error (provisioningMsg indexName),
            .logWarn :: ([.listIndexes, .createIndex indexName]
              ++ (waitForIndexReady indexName env.poll).2)) := by
      rw [ensureInitialized, if_neg (by rw [hsi]; intro hc; exact Bool.noConfusion hc)]
      rw [hinit]
    have hup : upsert env indexName s vectors
        = (.error (provisioningMsg indexName),
            .logWarn :: ([.listIndexes, .createIndex indexName]
              ++ (waitForIndexReady indexName env.poll).2)) := by
      rw [upsert, if_neg hlen, hens]
    rw [hup]
    refine ⟨rfl, ?_⟩
    simp only [List.filter_cons, List.filter_append]
    have hwait : (waitForIndexReady indexName env.poll).2.filter
        (fun a => a.isNsUpsert) = [] := by
      apply List.filter_eq_nil.mpr
      intro a ha
      have := waitGo_no_upsert indexName env.poll MAX_RETRIES 0 a ha
      simp [this]
    rw [hwait]
    rfl

end PineconeService

namespace Jobs

/-- Job status enumeration (src/src/models/job.model.ts, `JobStatus`). -/
inductive JobStatus where
  | queued
  | running
  | succeeded
  | failed
deriving DecidableEq

/-- Externally visible events of one pipeline run: job-record updates
(`mongoService.updateJobStatus(jobId, status, progress, error?)`), the
embedding call per chunk, the single vector-store upsert call, and removal
of the working directory. -/
inductive JobEvent where
  | updateJob (status : JobStatus) (progress : Nat) (error : Option String)
  | embedCall (content : List Char)
  | upsertCall (count : Nat)
  | cleanWorkDir
deriving DecidableEq

/-- Modelled from the spec: `INITIAL_PROGRESS` from `src/utils/constants`,
which is imported by the pipeline (src/unnamed/part_000 lines 56-61) but
absent from the source tree; spec §4.5 step 2 fixes the initial checkpoint
as "e.g. 10". -/
def INITIAL_PROGRESS : Nat := 10

/-- Modelled from the spec: `CHUNKING_PROGRESS` from the missing
`src/utils/constants`; spec §4.5 step 3 fixes the chunking-complete
checkpoint as "e.g. 30". -/
def CHUNKING_PROGRESS : Nat := 30

/-- Modelled from the spec: `FINAL_PROGRESS` from the missing
`src/utils/constants`; spec §4.5 steps 3 and 6 fix final progress as 100. -/
def FINAL_PROGRESS : Nat := 100

/-- Modelled from the spec: the embedding `BATCH_SIZE` from the missing
`src/utils/constants`; spec §4.5 step 4 fixes it as "e.g. 50 per batch". -/
def BATCH_SIZE : Nat := 50

/-- `updateProgress` (src/unnamed/part_000 lines 64-72): the written value
is `Math.floor(base + (100 - base) * current / total)`. -/
def updateProgressValue (baseProgress current total : Nat) : Nat :=
  baseProgress + (100 - baseProgress) * current / total

/-- Per-run outcomes of the external collaborators: working-copy
acquisition, the chunks found by the walk (the chunker absorbs its own
per-file errors), each chunk's embedding call, and the vector upsert. -/
structure PipelineEnv where
  cloneResult : Except String Unit
  chunks : List CodeChunk
  embedResult : CodeChunk → Except String (List Rat)
  upsertResult : Except String Unit

/-- The first embedding failure in a batch, if any — `Promise.all` rejects
with the first rejected call's error. -/
def batchOutcome (env : PipelineEnv) (batch : List CodeChunk) : Except String Unit :=
  match batch.findSome? (fun c =>
    match env.embedResult c with
    | .error e => some e
    | .ok _ => none) with
  | some e => .error e
  | none => .ok ()

/-- The batch loop of `processChunksInBatches` (part_000 lines 111-131),
with the chunk count as fuel: `i` counts chunks already processed and
`total` is the chunk count; each batch issues one embedding call per chunk
and — when all succeed — one progress update; a failing batch aborts the
loop and no progress is written for it. -/
def processBatchesGo (env : PipelineEnv) (total : Nat) :
    Nat → Nat → List CodeChunk → Except String Unit × List JobEvent
  | _, _, [] => (.ok (), [])
  | 0, _, _ :: _ => (.ok (), [])
  | fuel + 1, i, c :: cs =>
      match batchOutcome env ((c :: cs).take BATCH_SIZE) with
      | .error e => (.error e, ((c :: cs).take BATCH_SIZE).map
          (fun ch => JobEvent.embedCall ch.content))
      | .ok _ =>
          ((processBatchesGo env total fuel (i + ((c :: cs).take BATCH_SIZE).length)
              ((c :: cs).drop BATCH_SIZE)).1,
            ((c :: cs).take BATCH_SIZE).map (fun ch => JobEvent.embedCall ch.content)
            ++ JobEvent.updateJob .running
                (updateProgressValue CHUNKING_PROGRESS
                  (i + ((c :: cs).take BATCH_SIZE).length) total) none
              :: (processBatchesGo env total fuel (i + ((c :: cs).take BATCH_SIZE).length)
                  ((c :: cs).drop BATCH_SIZE)).2)

def processBatches (env : PipelineEnv) (chunks : List CodeChunk) :
    Except String Unit × List JobEvent :=
  processBatchesGo env chunks.length chunks.length 0 chunks

/-- JavaScript `error?.message || 'Unknown error during embedding process'`:
an empty message falls back to the default. -/
def errMsgOr (e d : String) : String := if e = "" then d else e

/-- The `try` body of `processEmbedding` (part_000 lines 161-182): running
status at progress 0 then `INITIAL_PROGRESS`, early success at
`FINAL_PROGRESS` on zero chunks, otherwise the chunking checkpoint, the
batch loop, the upsert call, and the final success update. -/
def runBody (env : PipelineEnv) : Except String Unit × List JobEvent :=
  if env.chunks.length = 0 then
    (.ok (), [JobEvent.updateJob .running 0 none,
      JobEvent.updateJob .running INITIAL_PROGRESS none,
      JobEvent.updateJob .succeeded FINAL_PROGRESS none])
  else
    match (processBatches env env.chunks).1 with
    | .error e => (.error e,
        [JobEvent.updateJob .running 0 none,
         JobEvent.updateJob .running INITIAL_PROGRESS none,
         JobEvent.updateJob .running CHUNKING_PROGRESS none]
        ++ (processBatches env env.chunks).2)
    | .ok _ =>
        match env.upsertResult with
        | .error e => (.error e,
            [JobEvent.updateJob .running 0 none,
             JobEvent.updateJob .running INITIAL_PROGRESS none,
             JobEvent.updateJob .running CHUNKING_PROGRESS none]
            ++ (processBatches env env.chunks).2
            ++ [JobEvent.upsertCall env.chunks.length])
        | .ok _ => (.ok (),
            [JobEvent.updateJob .running 0 none,
             JobEvent.updateJob .running INITIAL_PROGRESS none,
             JobEvent.updateJob .running CHUNKING_PROGRESS none]
            ++ (processBatches env env.chunks).2
            ++ [JobEvent.upsertCall env.chunks.length,
              JobEvent.updateJob .succeeded FINAL_PROGRESS none])

/-- Embedding of `processEmbedding` (part_000 lines 152-219).  The clone
happens before the `try` block, so a clone failure propagates with no
job-record update and no cleanup by this function (the git service removes
its own partial directory, see `GitService.cloneRepository`).  A failure
inside the body writes status `failed`, progress 0, with the error message
(defaulted when empty), then the `finally` removes the working directory;
on success the `finally` cleanup runs as well. -/
def processEmbedding (env : PipelineEnv) : Except String Unit × List JobEvent :=
  match env.cloneResult with
  | .error e => (.error e, [])
  | .ok _ =>
      match (runBody env).1 with
      | .ok _ => (.ok (), (runBody env).2 ++ [JobEvent.cleanWorkDir])
      | .error e =>
          (.error e, (runBody env).2
            ++ [JobEvent.updateJob .failed 0
                  (some (errMsgOr e "Unknown error during embedding process")),
              JobEvent.cleanWorkDir])

/-- Statuses written to the job record over a run, in order. -/
def eventStatuses (evs : List JobEvent) : List JobStatus :=
  evs.filterMap (fun e =>
    match e with
    | .updateJob st _ _ => some st
    | _ => none)

/-- Progress values written to the job record over a run, in order. -/
def eventProgresses (evs : List JobEvent) : List Nat :=
  evs.filterMap (fun e =>
    match e with
    | .updateJob _ p _ => some p
    | _ => none)

theorem eventProgresses_nil_of_embeds (l : List CodeChunk) :
    eventProgresses (l.map (fun ch => JobEvent.embedCall ch.content)) = [] := by
  apply List.filterMap_eq_nil.mpr
  intro x hx
  obtain ⟨c, _, hc⟩ := List.mem_map.mp hx
  rw [← hc]

theorem eventProgresses_append (l1 l2 : List JobEvent) :
    eventProgresses (l1 ++ l2) = eventProgresses l1 ++ eventProgresses l2 :=
  List.filterMap_append _ _ _

theorem eventProgresses_cons_update (st : JobStatus) (p : Nat) (err : Option String)
    (l : List JobEvent) :
    eventProgresses (JobEvent.updateJob st p err :: l) = p :: eventProgresses l := rfl

theorem eventProgresses_cons_upsert (k : Nat) (l : List JobEvent) :
    eventProgresses (JobEvent.upsertCall k :: l) = eventProgresses l := rfl

theorem eventProgresses_cons_clean (l : List JobEvent) :
    eventProgresses (JobEvent.cleanWorkDir :: l) = eventProgresses l := rfl

theorem updateProgressValue_mono (base total a b : Nat) (h : a ≤ b) :
    updateProgressValue base a total ≤ updateProgressValue base b total := by
  have hd : (100 - base) * a / total ≤ (100 - base) * b / total :=
    Nat.div_le_div_right (Nat.mul_le_mul (le_refl (100 - base)) h)
  unfold updateProgressValue
  omega

theorem updateProgressValue_total (base total : Nat) (ht : 0 < total) (hb : base ≤ 100) :
    updateProgressValue base total total = 100 := by
  unfold updateProgressValue
  rw [Nat.mul_div_cancel _ ht]
  omega

theorem updateProgressValue_zero (base total : Nat) :
    updateProgressValue base 0 total = base := by
  unfold updateProgressValue
  simp

theorem processBatchesGo_nil (env : PipelineEnv) (total fuel i : Nat) :
    processBatchesGo env total fuel i [] = (.ok (), []) := by
  cases fuel <;> rfl

theorem processBatchesGo_cons_err (env : PipelineEnv) (total fuel i : Nat)
    (c : CodeChunk) (cs : List CodeChunk) (e : String)
    (hbo : batchOutcome env ((c :: cs).take BATCH_SIZE) = .error e) :
    processBatchesGo env total (fuel + 1) i (c :: cs)
      = (.error e, ((c :: cs).take BATCH_SIZE).map
          (fun ch => JobEvent.embedCall ch.content)) := by
  rw [processBatchesGo, hbo]

theorem processBatchesGo_cons_ok (env : PipelineEnv) (total fuel i : Nat)
    (c : CodeChunk) (cs : List CodeChunk)
    (hbo : batchOutcome env ((c :: cs).take BATCH_SIZE) = .ok ()) :
    processBatchesGo env total (fuel + 1) i (c :: cs)
      = ((processBatchesGo env total fuel (i + ((c :: cs).take BATCH_SIZE).length)
            ((c :: cs).drop BATCH_SIZE)).1,
         ((c :: cs).take BATCH_SIZE).map (fun ch => JobEvent.embedCall ch.content)
          ++ JobEvent.updateJob .running
              (updateProgressValue CHUNKING_PROGRESS
                (i + ((c :: cs).take BATCH_SIZE).length) total) none
            :: (processBatchesGo env total fuel (i + ((c :: cs).take BATCH_SIZE).length)
                ((c :: cs).drop BATCH_SIZE)).2) := by
  rw [processBatchesGo, hbo]

theorem processBatchesGo_progress (env : PipelineEnv) (total : Nat) :
    ∀ (fuel i : Nat) (rest : List CodeChunk),
    rest.length ≤ fuel → i + rest.length = total →
    List.Chain' (· ≤ ·) (eventProgresses (processBatchesGo env total fuel i rest).2)
    ∧ (∀ p ∈ eventProgresses (processBatchesGo env total fuel i rest).2,
        updateProgressValue CHUNKING_PROGRESS i total ≤ p
        ∧ p ≤ updateProgressValue CHUNKING_PROGRESS total total)
    ∧ ((processBatchesGo env total fuel i rest).1 = .ok () → rest ≠ [] →
        (eventProgresses (processBatchesGo env total fuel i rest).2).getLast?
          = some (updateProgressValue CHUNKING_PROGRESS total total)) := by
  intro fuel
  induction fuel with
  | zero =>
      intro i rest hf hi
      have hnil : rest = [] := List.length_eq_zero.mp (by omega)
      subst hnil
      rw [processBatchesGo_nil]
      exact ⟨List.chain'_nil, by simp [eventProgresses], fun _ hne => absurd rfl hne⟩
  | succ fuel ih =>
      intro i rest hf hi
      rcases rest with _ | ⟨c, cs⟩
      · rw [processBatchesGo_nil]
        exact ⟨List.chain'_nil, by simp [eventProgresses], fun _ hne => absurd rfl hne⟩
      · have hB : 0 < BATCH_SIZE := by decide
        have hblen : ((c :: cs).take BATCH_SIZE).length = min BATCH_SIZE (c :: cs).length :=
          List.length_take _ _
        have hdlen : ((c :: cs).drop BATCH_SIZE).length = (c :: cs).length - BATCH_SIZE :=
          List.length_drop _ _
        have hlen : (c :: cs).length = cs.length + 1 := rfl
        cases hbo : batchOutcome env ((c :: cs).take BATCH_SIZE) with
        | error e =>
            rw [processBatchesGo_cons_err env total fuel i c cs e hbo]
            refine ⟨?_, ?_, ?_⟩
            · rw [eventProgresses_nil_of_embeds]
              exact List.chain'_nil
            · rw [eventProgresses_nil_of_embeds]
              simp
            · intro h
              simp at h
        | ok u =>
            cases u
            rw [processBatchesGo_cons_ok env total fuel i c cs hbo]
            have hfuel : ((c :: cs).drop BATCH_SIZE).length ≤ fuel := by
              rw [hdlen]
              omega
            have hinv : (i + ((c :: cs).take BATCH_SIZE).length)
                + ((c :: cs).drop BATCH_SIZE).length = total := by
              rw [hblen, hdlen]
              omega
            obtain ⟨ihchain, ihbound, ihlast⟩ :=
              ih (i + ((c :: cs).take BATCH_SIZE).length) ((c :: cs).drop BATCH_SIZE)
                hfuel hinv
            have hevs : eventProgresses
                (((c :: cs).take BATCH_SIZE).map (fun ch => JobEvent.embedCall ch.content)
                  ++ JobEvent.updateJob .running
                      (updateProgressValue CHUNKING_PROGRESS
                        (i + ((c :: cs).take BATCH_SIZE).length) total) none
                    :: (processBatchesGo env total fuel
                        (i + ((c :: cs).take BATCH_SIZE).length)
                        ((c :: cs).drop BATCH_SIZE)).2)
                = updateProgressValue CHUNKING_PROGRESS
                    (i + ((c :: cs).take BATCH_SIZE).length) total
                  :: eventProgresses (processBatchesGo env total fuel
                      (i + ((c :: cs).take BATCH_SIZE).length)
                      ((c :: cs).drop BATCH_SIZE)).2 := by
              rw [eventProgresses_append, eventProgresses_nil_of_embeds,
                eventProgresses_cons_update, List.nil_append]
            rw [hevs]
            have hmono1 : updateProgressValue CHUNKING_PROGRESS i total
                ≤ updateProgressValue CHUNKING_PROGRESS
                    (i + ((c :: cs).take BATCH_SIZE).length) total :=
              updateProgressValue_mono _ _ _ _ (by omega)
            have hmono2 : updateProgressValue CHUNKING_PROGRESS
                (i + ((c :: cs).take BATCH_SIZE).length) total
                ≤ updateProgressValue CHUNKING_PROGRESS total total :=
              updateProgressValue_mono _ _ _ _ (by rw [hblen]; omega)
            refine ⟨?_, ?_, ?_⟩
            · apply List.chain'_cons'.mpr
              refine ⟨?_, ihchain⟩
              intro y hy
              exact (ihbound y (List.mem_of_mem_head? hy)).1
            · intro p hp
              rcases List.mem_cons.mp hp with hp | hp
              · subst hp
                exact ⟨hmono1, hmono2⟩
              · obtain ⟨h1, h2⟩ := ihbound p hp
                exact ⟨le_trans hmono1 h1, h2⟩
            · intro hok hne
              by_cases hdrop : (c :: cs).drop BATCH_SIZE = []
              · have hbl : i + ((c :: cs).take BATCH_SIZE).length = total := by
                  have h0 : (c :: cs).length - BATCH_SIZE = 0 := by
                    have := congrArg List.length hdrop
                    rw [hdlen] at this
                    simpa using this
                  rw [hblen]
                  omega
                rw [hdrop, processBatchesGo_nil]
                rw [hbl]
                rfl
              · have hl := ihlast hok hdrop
                rw [show updateProgressValue CHUNKING_PROGRESS
                      (i + ((c :: cs).take BATCH_SIZE).length) total
                      :: eventProgresses (processBatchesGo env total fuel
                          (i + ((c :: cs).take BATCH_SIZE).length)
                          ((c :: cs).drop BATCH_SIZE)).2
                    = [updateProgressValue CHUNKING_PROGRESS
                        (i + ((c :: cs).take BATCH_SIZE).length) total]
                      ++ eventProgresses (processBatchesGo env total fuel
                          (i + ((c :: cs).take BATCH_SIZE).length)
                          ((c :: cs).drop BATCH_SIZE)).2 from rfl,
                  List.getLast?_append, hl]
                rfl

/-- C4.  A run whose repository yields zero chunks is an early success: the
job goes `queued → running → succeeded` (statuses written: running at 0,
running at the initial checkpoint, succeeded at exactly 100), no embedding
call and no upsert call is made, and the working directory is still
removed.  The checkpoint constants come from the spec (the `constants`
module is absent from the source tree). -/
theorem processEmbedding_zero_chunks (env : PipelineEnv)
    (hclone : env.cloneResult = .ok ()) (hchunks : env.chunks = []) :
    processEmbedding env = (.ok (),
      [JobEvent.updateJob .running 0 none,
       JobEvent.updateJob .running INITIAL_PROGRESS none,
       JobEvent.updateJob .succeeded FINAL_PROGRESS none,
       JobEvent.cleanWorkDir])
    ∧ FINAL_PROGRESS = 100
    ∧ eventStatuses (processEmbedding env).2
        = [JobStatus.running, JobStatus.running, JobStatus.succeeded]
    ∧ eventProgresses (processEmbedding env).2 = [0, INITIAL_PROGRESS, FINAL_PROGRESS]
    ∧ (∀ c, JobEvent.embedCall c ∉ (processEmbedding env).2)
    ∧ (∀ k, JobEvent.upsertCall k ∉ (processEmbedding env).2) := by
  have hrb : runBody env = (.ok (),
      [JobEvent.updateJob .running 0 none,
       JobEvent.updateJob .running INITIAL_PROGRESS none,
       JobEvent.updateJob .succeeded FINAL_PROGRESS none]) := by
    rw [runBody, if_pos (by rw [hchunks]; rfl)]
  have h1 : processEmbedding env = (.ok (),
      [JobEvent.updateJob .running 0 none,
       JobEvent.updateJob .running INITIAL_PROGRESS none,
       JobEvent.updateJob .succeeded FINAL_PROGRESS none,
       JobEvent.cleanWorkDir]) := by
    rw [processEmbedding, hclone, hrb]
    rfl
  refine ⟨h1, rfl, ?_, ?_, ?_, ?_⟩
  · rw [h1]
    rfl
  · rw [h1]
    rfl
  · intro c
    rw [h1]
    simp
  · intro k
    rw [h1]
    simp

/-- Environment for the C4 witness: the clone succeeds and the walk finds
no chunks. -/
def zeroChunksEnv : PipelineEnv :=
  ⟨.ok (), [], fun _ => .ok [], .ok ()⟩

/-- Witness for C4 at a concrete input. -/
theorem processEmbedding_zero_chunks_witness :
    zeroChunksEnv.cloneResult = .ok ()
    ∧ zeroChunksEnv.chunks = []
    ∧ (processEmbedding zeroChunksEnv = (.ok (),
        [JobEvent.updateJob .running 0 none,
         JobEvent.updateJob .running INITIAL_PROGRESS none,
         JobEvent.updateJob .succeeded FINAL_PROGRESS none,
         JobEvent.cleanWorkDir])
      ∧ FINAL_PROGRESS = 100
      ∧ eventStatuses (processEmbedding zeroChunksEnv).2
          = [JobStatus.running, JobStatus.running, JobStatus.succeeded]
      ∧ eventProgresses (processEmbedding zeroChunksEnv).2
          = [0, INITIAL_PROGRESS, FINAL_PROGRESS]
      ∧ (∀ c, JobEvent.embedCall c ∉ (processEmbedding zeroChunksEnv).2)
      ∧ (∀ k, JobEvent.upsertCall k ∉ (processEmbedding zeroChunksEnv).2)) :=
  ⟨rfl, rfl, processEmbedding_zero_chunks zeroChunksEnv rfl rfl⟩

/-- Environment for the C3 counterexample: the working-copy acquisition
itself fails. -/
def cloneFailEnv : PipelineEnv :=
  ⟨.error "clone failed", [], fun _ => .ok [], .ok ()⟩

/-- Counterexample for C3 as stated: when the working-copy acquisition
fails, the clone happens before the `try` block of `processEmbedding`, so
the run propagates the error having performed NO job-record update at all —
in particular the job is never set to `failed` — and no cleanup event is
issued by the pipeline (the trace is empty). -/
theorem processEmbedding_clone_failure_no_update :
    processEmbedding cloneFailEnv = (.error "clone failed", []) := rfl

/-- C3 (amended).  For every run in which the working copy was acquired
(clone succeeded) and a later stage — batch embedding or vector upsert —
fails, the job record is updated to `failed` with progress 0 and a
non-empty error message, and the working directory is removed afterward,
as the last event of the run; a failure of the working-copy acquisition
itself instead propagates to the caller with no job-record update (the git
service removes its own partial directory, see
`GitService.cloneRepository_failure_cleanup`). -/
theorem processEmbedding_failure_sets_failed (env : PipelineEnv) (e : String)
    (hclone : env.cloneResult = .ok ())
    (herr : (processEmbedding env).1 = .error e) :
    ∃ evs msg, msg ≠ ""
      ∧ (processEmbedding env).2
        = evs ++ [JobEvent.updateJob .failed 0 (some msg), JobEvent.cleanWorkDir] := by
  rw [processEmbedding, hclone] at herr ⊢
  cases hr : (runBody env).1 with
  | ok u =>
      rw [hr] at herr
      simp at herr
  | error e2 =>
      refine ⟨(runBody env).2,
        errMsgOr e2 "Unknown error during embedding process", ?_, rfl⟩
      by_cases h2 : e2 = ""
      · rw [errMsgOr, if_pos h2]
        decide
      · rw [errMsgOr, if_neg h2]
        exact h2

/-- Environment for the C3 witness: the clone succeeds, there is one chunk,
and its embedding call fails. -/
def embedFailEnv : PipelineEnv :=
  ⟨.ok (), [⟨['x'], ["a.ts"], 0, 1, 1⟩], fun _ => .error "boom", .ok ()⟩

/-- Witness for C3 (amended) at a concrete input. -/
theorem processEmbedding_failure_sets_failed_witness :
    embedFailEnv.cloneResult = .ok ()
    ∧ (processEmbedding embedFailEnv).1 = .error "boom"
    ∧ ∃ evs msg, msg ≠ ""
      ∧ (processEmbedding embedFailEnv).2
        = evs ++ [JobEvent.updateJob .failed 0 (some msg), JobEvent.cleanWorkDir] :=
  ⟨rfl, rfl, processEmbedding_failure_sets_failed embedFailEnv "boom" rfl rfl⟩

theorem mem_of_getLast?_eq {α : Type} {l : List α} {a : α} (h : l.getLast? = some a) :
    a ∈ l := by
  obtain ⟨hne, heq⟩ := List.mem_getLast?_eq_getLast (Option.mem_def.mpr h)
  rw [heq]
  exact List.getLast_mem hne

theorem runBody_ok_progress (env : PipelineEnv) (hr : (runBody env).1 = .ok ()) :
    List.Chain' (· ≤ ·) (eventProgresses (runBody env).2)
    ∧ (eventProgresses (runBody env).2).getLast? = some 100 := by
  by_cases h0 : env.chunks.length = 0
  · rw [runBody, if_pos h0]
    constructor
    · show List.Chain' (· ≤ ·) (eventProgresses
        [JobEvent.updateJob .running 0 none,
         JobEvent.updateJob .running INITIAL_PROGRESS none,
         JobEvent.updateJob .succeeded FINAL_PROGRESS none])
      rw [show eventProgresses
          [JobEvent.updateJob .running 0 none,
           JobEvent.updateJob .running INITIAL_PROGRESS none,
           JobEvent.updateJob .succeeded FINAL_PROGRESS none]
          = [0, INITIAL_PROGRESS, FINAL_PROGRESS] from rfl]
      norm_num [List.chain'_cons, List.chain'_singleton, INITIAL_PROGRESS, FINAL_PROGRESS]
    · rfl
  · cases hpb : (processBatches env env.chunks).1 with
    | error e =>
        rw [runBody, if_neg h0, hpb] at hr
        simp at hr
    | ok u =>
        cases u
        cases hup : env.upsertResult with
        | error e =>
            rw [runBody, if_neg h0, hpb, hup] at hr
            simp at hr
        | ok u2 =>
            cases u2
            rw [runBody, if_neg h0, hpb, hup]
            have htot : 0 < env.chunks.length := Nat.pos_of_ne_zero h0
            obtain ⟨pbchain, pbbound, pblast⟩ :=
              processBatchesGo_progress env env.chunks.length env.chunks.length 0
                env.chunks le_rfl (by omega)
            have h100 : updateProgressValue CHUNKING_PROGRESS env.chunks.length
                env.chunks.length = 100 :=
              updateProgressValue_total _ _ htot (by decide)
            have h30 : updateProgressValue CHUNKING_PROGRESS 0 env.chunks.length
                = CHUNKING_PROGRESS := updateProgressValue_zero _ _
            have hev : eventProgresses
                ([JobEvent.updateJob .running 0 none,
                  JobEvent.updateJob .running INITIAL_PROGRESS none,
                  JobEvent.updateJob .running CHUNKING_PROGRESS none]
                  ++ (processBatches env env.chunks).2
                  ++ [JobEvent.upsertCall env.chunks.length,
                    JobEvent.updateJob .succeeded FINAL_PROGRESS none])
                = ([0, INITIAL_PROGRESS, CHUNKING_PROGRESS]
                    ++ eventProgresses (processBatches env env.chunks).2)
                  ++ [FINAL_PROGRESS] := by
              rw [eventProgresses_append, eventProgresses_append]
              rfl
            show List.Chain' (· ≤ ·) (eventProgresses
                ([JobEvent.updateJob .running 0 none,
                  JobEvent.updateJob .running INITIAL_PROGRESS none,
                  JobEvent.updateJob .running CHUNKING_PROGRESS none]
                  ++ (processBatches env env.chunks).2
                  ++ [JobEvent.upsertCall env.chunks.length,
                    JobEvent.updateJob .succeeded FINAL_PROGRESS none]))
              ∧ (eventProgresses
                ([JobEvent.updateJob .running 0 none,
                  JobEvent.updateJob .running INITIAL_PROGRESS none,
                  JobEvent.updateJob .running CHUNKING_PROGRESS none]
                  ++ (processBatches env env.chunks).2
                  ++ [JobEvent.upsertCall env.chunks.length,
                    JobEvent.updateJob .succeeded FINAL_PROGRESS none])).getLast?
                = some 100
            rw [hev]
            constructor
            · apply List.chain'_append.mpr
              refine ⟨?_, List.chain'_singleton _, ?_⟩
              · apply List.chain'_append.mpr
                refine ⟨?_, pbchain, ?_⟩
                · norm_num [List.chain'_cons, List.chain'_singleton,
                    INITIAL_PROGRESS, CHUNKING_PROGRESS]
                · intro x hx y hy
                  simp at hx
                  subst hx
                  have hyb := (pbbound y (List.mem_of_mem_head? hy)).1
                  rw [h30] at hyb
                  exact hyb
              · intro x hx y hy
                simp at hy
                subst hy
                rw [List.getLast?_append] at hx
                cases hpl : (eventProgresses (processBatches env env.chunks).2).getLast? with
                | none =>
                    rw [hpl] at hx
                    simp at hx
                    subst hx
                    decide
                | some v =>
                    rw [hpl] at hx
                    simp at hx
                    subst hx
                    have hvmem : v ∈ eventProgresses (processBatches env env.chunks).2 :=
                      mem_of_getLast?_eq hpl
                    have hvb := (pbbound v hvmem).2
                    rw [h100] at hvb
                    have hF : FINAL_PROGRESS = 100 := rfl
                    omega
            · rw [List.getLast?_concat]
              rfl

/-- C5.  For every successful pipeline run, the sequence of progress values
written to the job record is non-decreasing and the final written value is
exactly 100; in particular while the status is `running` no progress update
is smaller than the previous one.  The checkpoint constants come from the
spec (the `constants` module is absent from the source tree). -/
theorem processEmbedding_progress_monotone (env : PipelineEnv)
    (hok : (processEmbedding env).1 = .ok ()) :
    List.Chain' (· ≤ ·) (eventProgresses (processEmbedding env).2)
    ∧ (eventProgresses (processEmbedding env).2).getLast? = some 100 := by
  cases hc : env.cloneResult with
  | error e =>
      rw [processEmbedding, hc] at hok
      simp at hok
  | ok u =>
      cases u
      cases hr : (runBody env).1 with
      | error e =>
          rw [processEmbedding, hc, hr] at hok
          simp at hok
      | ok u2 =>
          cases u2
          rw [processEmbedding, hc, hr]
          show List.Chain' (· ≤ ·)
              (eventProgresses ((runBody env).2 ++ [JobEvent.cleanWorkDir]))
            ∧ (eventProgresses ((runBody env).2 ++ [JobEvent.cleanWorkDir])).getLast?
              = some 100
          rw [eventProgresses_append,
            show eventProgresses [JobEvent.cleanWorkDir] = [] from rfl,
            List.append_nil]
          exact runBody_ok_progress env hr

/-- Environment for the C5 witness: a one-chunk repository where every
stage succeeds. -/
def successEnv : PipelineEnv :=
  ⟨.ok (), [⟨['x'], ["a.ts"], 0, 1, 1⟩], fun _ => .ok [], .ok ()⟩

/-- Witness for C5 at a concrete input. -/
theorem processEmbedding_progress_monotone_witness :
    (processEmbedding successEnv).1 = .ok ()
    ∧ (List.Chain' (· ≤ ·) (eventProgresses (processEmbedding successEnv).2)
      ∧ (eventProgresses (processEmbedding successEnv).2).getLast? = some 100) :=
  ⟨rfl, processEmbedding_progress_monotone successEnv rfl⟩

end Jobs

namespace GitService

/-- Steps of `cloneRepository` and `cleanWorkingDirectory`
(src/src/services/git.service.ts lines 14-49), as externally visible
events: job-directory creation, `git clone`, `git checkout`, and the
recursive forced removal performed by `cleanWorkingDirectory` (whose own
failure is logged, never raised). -/
inductive GitEvent where
  | mkdir
  | clone
  | checkout
  | removeDir
deriving DecidableEq

/-- Outcomes of the external commands used by `cloneRepository`. -/
structure GitEnv where
  mkdirResult : Except String Unit
  cloneResult : Except String Unit
  checkoutResult : Except String Unit

/-- Embedding of `GitService.cloneRepository` (git.service.ts lines 14-40):
create the job directory, clone, and check out the revision when one was
supplied; on any failure the catch removes the partially created directory
via `cleanWorkingDirectory` and then rethrows the error. -/
def cloneRepository (env : GitEnv) (hasCommit : Bool) :
    Except String Unit × List GitEvent :=
  match env.mkdirResult with
  | .error e => (.error e, [GitEvent.mkdir, GitEvent.removeDir])
  | .ok _ =>
      match env.cloneResult with
      | .error e => (.error e, [GitEvent.mkdir, GitEvent.clone, GitEvent.removeDir])
      | .ok _ =>
          if hasCommit then
            match env.checkoutResult with
            | .error e => (.error e,
                [GitEvent.mkdir, GitEvent.clone, GitEvent.checkout, GitEvent.removeDir])
            | .ok _ => (.ok (), [GitEvent.mkdir, GitEvent.clone, GitEvent.checkout])
          else (.ok (), [GitEvent.mkdir, GitEvent.clone])

/-- C9.  Whenever `cloneRepository` fails — at directory creation, clone, or
revision checkout — the partially created job directory is removed before
the error is propagated: the failing run's last event is the removal, and
the error is still returned to the caller, so no orphaned partial clone
remains. -/
theorem cloneRepository_failure_cleanup (env : GitEnv) (hasCommit : Bool) (e : String)
    (herr : (cloneRepository env hasCommit).1 = .error e) :
    (cloneRepository env hasCommit).2.getLast? = some GitEvent.removeDir := by
  rw [cloneRepository] at herr ⊢
  cases hx : env.mkdirResult with
  | error e1 => rfl
  | ok u =>
      cases u
      rw [hx] at herr
      cases hy : env.cloneResult with
      | error e2 => rfl
      | ok u2 =>
          cases u2
          rw [hy] at herr
          cases hasCommit with
          | false => simp at herr
          | true =>
              cases hz : env.checkoutResult with
              | error e3 => rfl
              | ok u3 =>
                  cases u3
                  rw [hz] at herr
                  simp at herr

/-- Environment for the C9 witness: the directory is created and the clone
itself fails. -/
def cloneFailGitEnv : GitEnv := ⟨.ok (), .error "clone failed", .ok ()⟩

/-- Witness for C9 at a concrete input. -/
theorem cloneRepository_failure_cleanup_witness :
    (cloneRepository cloneFailGitEnv true).1 = .error "clone failed"
    ∧ (cloneRepository cloneFailGitEnv true).2.getLast? = some GitEvent.removeDir :=
  ⟨rfl, cloneRepository_failure_cleanup cloneFailGitEnv true "clone failed" rfl⟩

end GitService

end VSS
